import Mathlib

/-!
Verification of the docset resolution pipeline of the documentation-to-Markdown
service (URL normalization, docset-type detection, fetch fallback orchestration,
and search-index discovery).  The TypeScript sources are shallowly embedded:
pure string manipulation is translated function by function; the platform
`URL` class is modelled by an explicit record together with a parser and a
serializer covering the well-behaved fragment the pipeline relies on
(`http`/`https` URLs that need no percent-encoding, dot-segment removal or
host normalization); the injected HTTP fetch capability becomes an explicit
oracle `String → Option String` (`none` models a network error or non-2xx
response), and every function that can observe a fetch also returns the list
of URLs it requested, so that frame properties about network access are
statable.  DOM extraction and Turndown conversion are external collaborators
of the orchestrator and are passed in as function parameters.
-/

/-! ### Character and string helpers (ASCII fragment of the JS primitives) -/

def isAsciiLetter (c : Char) : Bool :=
  (Char.ofNat 97 ≤ c && c ≤ Char.ofNat 122) || (Char.ofNat 65 ≤ c && c ≤ Char.ofNat 90)

def isAsciiAlnum (c : Char) : Bool :=
  isAsciiLetter c || c.isDigit

/-- Whitespace recognised by the JS `trim`/`\s` (ASCII subset plus NBSP, BOM
and the line separators; the exotic Unicode spaces never occur in the inputs
this pipeline handles). -/
def jsWhitespace (c : Char) : Bool :=
  c = ' ' || c = '\t' || c = '\n' || c = '\r' || c = '\x0b' || c = '\x0c' ||
    c = Char.ofNat 160 || c = Char.ofNat 65279 || c = Char.ofNat 8232 || c = Char.ofNat 8233

def jsTrimL (cs : List Char) : List Char :=
  ((cs.dropWhile jsWhitespace).reverse.dropWhile jsWhitespace).reverse

def jsTrim (s : String) : String := (jsTrimL s.data).asString

/-- Model of `String.prototype.toLowerCase` on the ASCII range. -/
def toLowerStr (s : String) : String := (s.data.map Char.toLower).asString

/-- Boolean prefix test on character lists. -/
def listStartsWith : List Char → List Char → Bool
  | [], _ => true
  | _ :: _, [] => false
  | p :: ps, c :: cs => p = c && listStartsWith ps cs

/-- Case-insensitive prefix test on character lists (ASCII case folding). -/
def listStartsWithCI : List Char → List Char → Bool
  | [], _ => true
  | _ :: _, [] => false
  | p :: ps, c :: cs => p.toLower = c.toLower && listStartsWithCI ps cs

/-- Model of `String.prototype.includes` (substring test). -/
def containsSubL (needle : List Char) : List Char → Bool
  | [] => needle.isEmpty
  | c :: t => listStartsWith needle (c :: t) || containsSubL needle t

def containsSubStr (s sub : String) : Bool := containsSubL sub.data s.data

def strStartsWith (s pre : String) : Bool := listStartsWith pre.data s.data

def strEndsWith (s suf : String) : Bool :=
  listStartsWith suf.data.reverse s.data.reverse

/-- Model of the regex test `/\.[a-z0-9]+$/i`: the string ends in a dot
followed by one or more alphanumerics. -/
def endsWithDotExt (s : String) : Bool :=
  let rev := s.data.reverse
  let run := rev.takeWhile isAsciiAlnum
  !run.isEmpty && (rev.drop run.length).head? = some '.'

/-- Model of `String.prototype.split(sep)` for a single-character separator,
keeping empty pieces exactly as JS does. -/
def splitOnCharGo (sep : Char) (cur : List Char) : List Char → List String
  | [] => [cur.reverse.asString]
  | c :: rest =>
      if c = sep then cur.reverse.asString :: splitOnCharGo sep [] rest
      else splitOnCharGo sep (c :: cur) rest

def splitOnChar (sep : Char) (s : String) : List String :=
  splitOnCharGo sep [] s.data

/-- Model of `String.prototype.slice(0, n)` for a nonnegative end index. -/
def jsSliceTo (s : String) (n : Nat) : String := (s.data.take n).asString

/-! ### URL model

A record model of the WHATWG `URL` class restricted to absolute `http`/`https`
URLs that are already in canonical form (no percent-encoding needs, no `.`/`..`
segments, no userinfo).  `query` and `hash` are stored without their leading
`?`/`#`; an absent component is the empty string, matching how the pipeline
only ever observes `url.hash`/`url.search` through truthiness. -/

structure UrlRec where
  scheme : String
  authority : String
  path : String
  query : String
  hash : String
deriving DecidableEq, Repr

def urlStopChar (c : Char) : Bool := c = '/' || c = '?' || c = '#'

def schemeSplit (cs : List Char) : Option (List Char × List Char) :=
  if listStartsWithCI "https://".data cs then some (cs.take 5, cs.drop 8)
  else if listStartsWithCI "http://".data cs then some (cs.take 4, cs.drop 7)
  else none

def parseUrlL (cs : List Char) : Option UrlRec :=
  match schemeSplit cs with
  | none => none
  | some (sch, rest) =>
    let auth := rest.takeWhile (fun c => !urlStopChar c)
    if auth.isEmpty then none else
    let rest2 := rest.drop auth.length
    let path := rest2.takeWhile (fun c => !(c = '?' || c = '#'))
    let rest3 := rest2.drop path.length
    let query :=
      match rest3 with
      | '?' :: t => t.takeWhile (fun c => c ≠ '#')
      | _ => []
    let hash :=
      match rest3.dropWhile (fun c => c ≠ '#') with
      | _ :: t => t
      | [] => []
    some ⟨sch.asString, auth.asString,
      (if path.isEmpty then "/" else path.asString), query.asString, hash.asString⟩

/-- Model of `new URL(s)` for an absolute `http(s)` URL; `none` models the
constructor throwing. -/
def parseUrl (s : String) : Option UrlRec := parseUrlL s.data

def serializeUrlL (u : UrlRec) : List Char :=
  u.scheme.data ++ (':' :: '/' :: '/' :: []) ++ u.authority.data ++ u.path.data ++
    (if u.query = "" then [] else '?' :: u.query.data) ++
    (if u.hash = "" then [] else '#' :: u.hash.data)

/-- Model of `URL.prototype.toString` (`href`). -/
def serializeUrl (u : UrlRec) : String := (serializeUrlL u).asString

/-- Model of `url.origin` (scheme plus authority). -/
def urlOrigin (u : UrlRec) : String := u.scheme ++ "://" ++ u.authority

/-- Model of `url.hostname`: the authority with any `:port` suffix removed. -/
def urlHostname (u : UrlRec) : String :=
  (u.authority.data.takeWhile (fun c => c ≠ ':')).asString

/-- Directory of a URL path: everything up to and including the last slash. -/
def pathDirOf (path : String) : String :=
  ((path.data.reverse.dropWhile (fun c => c ≠ '/')).reverse).asString

/-- Splits a relative reference into its path, query and hash parts. -/
def splitRef (cs : List Char) : List Char × String × String :=
  let p := cs.takeWhile (fun c => !(c = '?' || c = '#'))
  let rest := cs.drop p.length
  let q :=
    match rest with
    | '?' :: t => t.takeWhile (fun c => c ≠ '#')
    | _ => []
  let h :=
    match rest.dropWhile (fun c => c ≠ '#') with
    | _ :: t => t
    | [] => []
  (p, q.asString, h.asString)

/-- Model of the regex test `/^https?:\/\//i`. -/
def hasHttpScheme (s : String) : Bool :=
  listStartsWithCI "http://".data s.data || listStartsWithCI "https://".data s.data

/-- Model of `new URL(input, base)` relative resolution on the fragment used
by the pipeline: absolute inputs are reparsed, root-relative inputs replace
the path, other inputs are appended to the base directory.  Dot-segment
normalization and protocol-relative references are outside the modelled
fragment (the pipeline never produces them). -/
def resolveRel (input : String) (base : UrlRec) : UrlRec :=
  let (p, q, h) := splitRef input.data
  if listStartsWith ['/'] input.data then
    { base with path := (if p.isEmpty then "/" else p.asString), query := q, hash := h }
  else
    { base with path := pathDirOf base.path ++ p.asString, query := q, hash := h }

def newUrl (input : String) (base : Option String) : Option UrlRec :=
  if hasHttpScheme input then parseUrl input
  else
    match base with
    | none => none
    | some b =>
      match parseUrl b with
      | none => none
      | some br => some (resolveRel input br)

/-! ### Generator meta tag regex

A specialised backtracking matcher for the source regex
`/<meta[^>]+name=["']generator["'][^>]*content=["']([^"']+)["'][^>]*>/i`,
implementing the leftmost-match, greedy-with-backtracking semantics of the JS
engine for exactly this pattern.  Quantifiers try the longer continuation
first, mirroring greediness. -/

def isQuoteChar (c : Char) : Bool := c = '"' || c = Char.ofNat 39

/-- Drops a case-insensitive literal prefix, returning the remainder. -/
def dropLitCI (lit : List Char) (s : List Char) : Option (List Char) :=
  match lit, s with
  | [], rest => some rest
  | _ :: _, [] => none
  | p :: ps, c :: cs => if p.toLower = c.toLower then dropLitCI ps cs else none

/-- Matches `content=["']([^"']+)["'][^>]*>` at the current position,
returning the capture group. -/
def matchContentAt (s : List Char) : Option String :=
  match dropLitCI "content=".data s with
  | none => none
  | some s1 =>
    match s1 with
    | [] => none
    | q :: s2 =>
      if isQuoteChar q then
        let cap := s2.takeWhile (fun c => !isQuoteChar c)
        if cap.isEmpty then none else
        match s2.drop cap.length with
        | q2 :: s3 =>
          if isQuoteChar q2 && !(s3.dropWhile (fun c => c ≠ '>')).isEmpty then
            some cap.asString
          else none
        | [] => none
      else none

/-- Matches `[^>]*content=...` greedily: consume another tag character first,
fall back to matching the literal here. -/
def starThenContent : List Char → Option String
  | [] => none
  | c :: rest =>
    (if c ≠ '>' then starThenContent rest else none).orElse
      (fun _ => matchContentAt (c :: rest))

/-- Matches `name=["']generator["']` then the content part. -/
def matchNameAt (s : List Char) : Option String :=
  match dropLitCI "name=".data s with
  | none => none
  | some s1 =>
    match s1 with
    | [] => none
    | q :: s2 =>
      if isQuoteChar q then
        match dropLitCI "generator".data s2 with
        | none => none
        | some s3 =>
          match s3 with
          | [] => none
          | q2 :: s4 => if isQuoteChar q2 then starThenContent s4 else none
      else none

/-- Matches `[^>]+name=...` greedily (at least one tag character consumed). -/
def plusThenName : List Char → Option String
  | [] => none
  | c :: rest =>
    if c = '>' then none
    else (plusThenName rest).orElse (fun _ => matchNameAt rest)

def matchMetaAt (s : List Char) : Option String :=
  (dropLitCI "<meta".data s).bind plusThenName

/-- Leftmost match of the generator regex over the document. -/
def genMatch : List Char → Option String
  | [] => none
  | c :: rest => (matchMetaAt (c :: rest)).orElse (fun _ => genMatch rest)

/-- Model of `getGenerator`: the capture of the generator meta regex,
lower-cased, or the empty string when the tag is absent. -/
def getGenerator (html : String) : String :=
  ((genMatch html.data).map toLowerStr).getD ""

/-! ### Docset type detection (src/lib/docset/detect.ts)

Docset type tags are modelled as plain strings, mirroring the TypeScript
string-literal union. -/

def docsetTypes : List String :=
  ["apple", "docusaurus", "mkdocs", "sphinx", "typedoc", "jsdoc", "rustdoc",
    "godoc", "pdoc", "generic"]

def hasAny (html : String) (needles : List String) : Bool :=
  needles.any (fun needle => containsSubStr html needle)

def isAppleHost (url : String) : Bool :=
  match parseUrl url with
  | none => false
  | some parsed =>
    strEndsWith (urlHostname parsed) "developer.apple.com" || urlHostname parsed = "sosumi.ai"

def detectDocsetType (html url : String) : String :=
  let generator := getGenerator html
  let lowerUrl := toLowerStr url
  if isAppleHost url then "apple"
  else if containsSubStr generator "docusaurus" ||
      hasAny html ["id=\"__docusaurus\"", "data-docusaurus"] then "docusaurus"
  else if containsSubStr generator "mkdocs" ||
      hasAny html ["md-content", "data-md-color-scheme"] then "mkdocs"
  else if containsSubStr generator "sphinx" ||
      hasAny html ["sphinxsidebar", "wy-nav-side"] then "sphinx"
  else if containsSubStr generator "typedoc" ||
      hasAny html ["tsd-kind", "tsd-page-title"] then "typedoc"
  else if containsSubStr generator "jsdoc" ||
      hasAny html ["jsdoc", "class=\"page\" id=\"main\""] then "jsdoc"
  else if containsSubStr generator "rustdoc" ||
      hasAny html ["rustdoc", "rustdoc-search"] then "rustdoc"
  else if containsSubStr lowerUrl "pkg.go.dev" || containsSubStr lowerUrl "godoc.org" ||
      hasAny html ["pkg-overview"] then "godoc"
  else if containsSubStr generator "pdoc" || hasAny html ["pdoc", "module-list"] then "pdoc"
  else "generic"

/-! ### JSON values and a model of JSON.parse

The index parsers go through `JSON.parse`; a small fueled parser models it on
the fragment the indexes use (objects, arrays, strings with the common
escapes, integer numbers, booleans, null).  `none` models the parse throwing.
The fuel is always sufficient for the given input because every recursive
call consumes at least one character. -/

inductive JValue where
  | jnull : JValue
  | jbool : Bool → JValue
  | jnum : Int → JValue
  | jstr : String → JValue
  | jarr : List JValue → JValue
  | jobj : List (String × JValue) → JValue

def lbrace : Char := Char.ofNat 123
def rbrace : Char := Char.ofNat 125

/-- Drops a case-sensitive literal prefix, returning the remainder. -/
def dropLit (lit s : List Char) : Option (List Char) :=
  if listStartsWith lit s then some (s.drop lit.length) else none

def isHexChar (c : Char) : Bool :=
  c.isDigit || ('a' ≤ c && c ≤ 'f') || ('A' ≤ c && c ≤ 'F')

def jsonWs (c : Char) : Bool := c = ' ' || c = '\t' || c = '\n' || c = '\r'

def jsonSkipWs (cs : List Char) : List Char := cs.dropWhile jsonWs

def parseJStrGo : Nat → List Char → List Char → Option (String × List Char)
  | 0, _, _ => none
  | _ + 1, _, [] => none
  | fuel + 1, acc, c :: rest =>
    if c = '"' then some (acc.reverse.asString, rest)
    else if c = '\\' then
      match rest with
      | [] => none
      | e :: rest2 =>
        if e = '"' || e = '\\' || e = '/' then parseJStrGo fuel (e :: acc) rest2
        else if e = 'n' then parseJStrGo fuel ('\n' :: acc) rest2
        else if e = 't' then parseJStrGo fuel ('\t' :: acc) rest2
        else if e = 'r' then parseJStrGo fuel ('\r' :: acc) rest2
        else if e = 'b' then parseJStrGo fuel ('\x08' :: acc) rest2
        else if e = 'f' then parseJStrGo fuel ('\x0c' :: acc) rest2
        else if e = 'u' then
          match rest2 with
          | h1 :: h2 :: h3 :: h4 :: rest3 =>
            if isHexChar h1 && isHexChar h2 && isHexChar h3 && isHexChar h4 then
              let n := 4096 * hexVal h1 + 256 * hexVal h2 + 16 * hexVal h3 + hexVal h4
              parseJStrGo fuel (Char.ofNat n :: acc) rest3
            else none
          | _ => none
        else none
    else parseJStrGo fuel (c :: acc) rest
where
  hexVal (c : Char) : Nat :=
    if c.isDigit then c.toNat - 48
    else if 'a' ≤ c && c ≤ 'f' then c.toNat - 87
    else if 'A' ≤ c && c ≤ 'F' then c.toNat - 55
    else 0

def parseJNum (cs : List Char) : Option (Int × List Char) :=
  let (neg, cs1) := match cs with
    | '-' :: t => (true, t)
    | _ => (false, cs)
  let digits := cs1.takeWhile Char.isDigit
  if digits.isEmpty then none else
  let rest := cs1.drop digits.length
  match rest with
  | '.' :: _ => none
  | 'e' :: _ => none
  | 'E' :: _ => none
  | _ =>
    let v : Int := digits.foldl (fun a c => a * 10 + (Int.ofNat (c.toNat - 48))) 0
    some (if neg then -v else v, rest)

mutual

def parseJVal : Nat → List Char → Option (JValue × List Char)
  | 0, _ => none
  | fuel + 1, cs =>
    match jsonSkipWs cs with
    | [] => none
    | c :: rest =>
      if c = '"' then
        (parseJStrGo (rest.length + 1) [] rest).map (fun p => (JValue.jstr p.1, p.2))
      else if c = lbrace then parseJObjFields fuel rest
      else if c = '[' then parseJArrElems fuel rest
      else if c = 't' then
        (dropLit "rue".data rest).map (fun r => (JValue.jbool true, r))
      else if c = 'f' then
        (dropLit "alse".data rest).map (fun r => (JValue.jbool false, r))
      else if c = 'n' then
        (dropLit "ull".data rest).map (fun r => (JValue.jnull, r))
      else
        (parseJNum (c :: rest)).map (fun p => (JValue.jnum p.1, p.2))

def parseJArrElems : Nat → List Char → Option (JValue × List Char)
  | 0, _ => none
  | fuel + 1, cs =>
    match jsonSkipWs cs with
    | ']' :: rest => some (JValue.jarr [], rest)
    | cs1 =>
      match parseJVal fuel cs1 with
      | none => none
      | some (v, rest) => parseJArrTail fuel [v] rest

def parseJArrTail : Nat → List JValue → List Char → Option (JValue × List Char)
  | 0, _, _ => none
  | fuel + 1, acc, cs =>
    match jsonSkipWs cs with
    | ']' :: rest => some (JValue.jarr acc.reverse, rest)
    | ',' :: rest =>
      match parseJVal fuel rest with
      | none => none
      | some (v, rest2) => parseJArrTail fuel (v :: acc) rest2
    | _ => none

def parseJObjFields : Nat → List Char → Option (JValue × List Char)
  | 0, _ => none
  | fuel + 1, cs =>
    match jsonSkipWs cs with
    | c :: rest =>
      if c = rbrace then some (JValue.jobj [], rest)
      else if c = '"' then
        match parseJStrGo (rest.length + 1) [] rest with
        | none => none
        | some (k, rest2) =>
          match jsonSkipWs rest2 with
          | ':' :: rest3 =>
            match parseJVal fuel rest3 with
            | none => none
            | some (v, rest4) => parseJObjTail fuel [(k, v)] rest4
          | _ => none
      else none
    | [] => none

def parseJObjTail : Nat → List (String × JValue) → List Char → Option (JValue × List Char)
  | 0, _, _ => none
  | fuel + 1, acc, cs =>
    match jsonSkipWs cs with
    | c :: rest =>
      if c = rbrace then some (JValue.jobj acc.reverse, rest)
      else if c = ',' then
        match jsonSkipWs rest with
        | q :: rest1 =>
          if q = '"' then
            match parseJStrGo (rest1.length + 1) [] rest1 with
            | none => none
            | some (k, rest2) =>
              match jsonSkipWs rest2 with
              | ':' :: rest3 =>
                match parseJVal fuel rest3 with
                | none => none
                | some (v, rest4) => parseJObjTail fuel ((k, v) :: acc) rest4
              | _ => none
          else none
        | [] => none
      else none
    | [] => none

end

/-- Model of `JSON.parse`; `none` models a thrown `SyntaxError`. -/
def jsonParse (s : String) : Option JValue :=
  match parseJVal (2 * s.length + 8) s.data with
  | none => none
  | some (v, rest) => if (jsonSkipWs rest).isEmpty then some v else none

/-- Object property lookup (`obj[key]`); `none` models `undefined`. -/
def jGet (fields : List (String × JValue)) (key : String) : Option JValue :=
  (fields.find? (fun f => f.1 = key)).map (fun f => f.2)

/-! ### Search module (src/lib/docset/search.ts, candidate-base version) -/

def searchIndexPaths : List String :=
  ["search/search_index.json", "searchindex.json", "search.json",
    "search-index.json", "searchindex.js"]

/-- Model of `normalizeInputUrl`: trim, default the scheme, parse, clear hash
and query, and collapse a trailing `/index.html` to the parent directory.
`Except.error` models the function throwing. -/
def normalizeInputUrl (input : String) : Except String UrlRec :=
  let trimmed := jsTrim input
  if trimmed = "" then Except.error "baseUrl is required"
  else
    let withScheme := if hasHttpScheme trimmed then trimmed else "https://" ++ trimmed
    match parseUrl withScheme with
    | none => Except.error "invalid URL"
    | some p0 =>
      let p1 : UrlRec := { p0 with hash := "", query := "" }
      if strEndsWith p1.path "/index.html" then
        let sliced := (p1.path.data.take (p1.path.length - "/index.html".length)).asString
        Except.ok { p1 with path := if sliced = "" then "/" else sliced }
      else Except.ok p1

def ensureTrailingSlash (url : UrlRec) : UrlRec :=
  let looksLikeFile := endsWithDotExt url.path
  if !looksLikeFile && !(strEndsWith url.path "/") then
    { url with path := url.path ++ "/" }
  else url

def dedupeGo (seen : List String) : List String → List String
  | [] => []
  | v :: rest =>
      if v ∈ seen then dedupeGo seen rest
      else v :: dedupeGo (v :: seen) rest

def dedupePreserveOrder (values : List String) : List String := dedupeGo [] values

def knownVersions : List String :=
  ["latest", "stable", "dev", "master", "main", "default", "current"]

/-- Matches `[^/]+` followed by `/` at the current position, returning the
segment. -/
def matchVersionSeg (cs : List Char) : Option String :=
  let seg := cs.takeWhile (fun c => c ≠ '/')
  if seg.isEmpty then none
  else if (cs.drop seg.length).head? = some '/' then some seg.asString else none

/-- Matches the language/version regex `^\/([a-z]{2}(?:-[a-z]{2})?)\/([^/]+)\//i`
at the start of the path, trying the optional `-xx` group greedily first. -/
def matchLangVer (cs : List Char) : Option (String × String) :=
  match cs with
  | '/' :: a :: b :: rest =>
    if isAsciiLetter a && isAsciiLetter b then
      let afterLang : List Char → String → Option (String × String) := fun tl lang =>
        match tl with
        | '/' :: tl2 => (matchVersionSeg tl2).map (fun v => (lang, v))
        | _ => none
      match rest with
      | '-' :: c :: d :: rest3 =>
        if isAsciiLetter c && isAsciiLetter d then
          (afterLang rest3 ([a, b, '-', c, d].asString)).orElse
            (fun _ => afterLang rest ([a, b].asString))
        else afterLang rest ([a, b].asString)
      | _ => afterLang rest ([a, b].asString)
    else none
  | _ => none

/-- Model of the regex test `/^v?\d/i` on an already lower-cased string. -/
def vDigitStart (s : String) : Bool :=
  match s.data with
  | 'v' :: c :: _ => c.isDigit
  | c :: _ => c.isDigit
  | [] => false

/-- Model of the regex test `/^\d+\.\d+/`. -/
def numDotNumStart (s : String) : Bool :=
  let ds := s.data.takeWhile Char.isDigit
  if ds.isEmpty then false
  else
    match s.data.drop ds.length with
    | '.' :: c :: _ => c.isDigit
    | _ => false

def guessVersionedDocsRootPath (pathname : String) : Option String :=
  match matchLangVer pathname.data with
  | none => none
  | some (lang, version) =>
    let versionLower := toLowerStr version
    let looksLikeVersion := knownVersions.contains versionLower ||
      vDigitStart versionLower || numDotNumStart versionLower
    if looksLikeVersion then some ("/" ++ lang ++ "/" ++ version ++ "/") else none

def exceptOfOption (o : Option α) (msg : String) : Except String α :=
  match o with
  | some a => Except.ok a
  | none => Except.error msg

def buildSearchBaseCandidates (baseUrl : String) : Except String (List String) :=
  match normalizeInputUrl baseUrl with
  | Except.error e => Except.error e
  | Except.ok parsed =>
    match newUrl "/" (some (urlOrigin parsed)) with
    | none => Except.error "invalid URL"
    | some originRootUrl =>
      let originRoot := serializeUrl originRootUrl
      match newUrl (serializeUrl parsed) none with
      | none => Except.error "invalid URL"
      | some currentDirUrl =>
        let currentDir := serializeUrl (ensureTrailingSlash currentDirUrl)
        let versionedCandsE : Except String (List String) :=
          match guessVersionedDocsRootPath parsed.path with
          | some vp =>
            match newUrl vp (some (urlOrigin parsed)) with
            | none => Except.error "invalid URL"
            | some u => Except.ok [serializeUrl u]
          | none => Except.ok []
        match versionedCandsE with
        | Except.error e => Except.error e
        | Except.ok versionedCands =>
          let segments := (splitOnChar '/' parsed.path).filter (fun s => s ≠ "")
          let segCandsE : Except String (List String) :=
            match segments.head? with
            | some s0 =>
              match newUrl ("/" ++ s0 ++ "/") (some (urlOrigin parsed)) with
              | none => Except.error "invalid URL"
              | some u => Except.ok [serializeUrl u]
            | none => Except.ok []
          match segCandsE with
          | Except.error e => Except.error e
          | Except.ok segCands =>
            Except.ok
              (dedupePreserveOrder (versionedCands ++ segCands ++ [currentDir, originRoot]))

def normalizeQuery (query : String) : String := toLowerStr (jsTrim query)

/-- Model of `toAbsoluteUrl`: resolve against the base, falling back to the
raw href when URL construction fails. -/
def toAbsoluteUrl (baseUrl href : String) : String :=
  match newUrl href (some baseUrl) with
  | some u => serializeUrl u
  | none => href

structure SearchResult where
  title : String
  url : String
  snippet : String
  source : String
deriving DecidableEq, Repr

/-! #### MkDocs index parser -/

structure MkDoc where
  title : Option String
  text : Option String
  location : Option String

/-- Decodes one element of the `docs` array, modelling the dynamic field
accesses: a missing or `null` field is `none`; a non-string field makes the
surrounding filter/map throw, modelled as decoding failure. -/
def decodeMkDoc : JValue → Option MkDoc
  | JValue.jobj fields =>
    let fieldStr : String → Option (Option String) := fun key =>
      match jGet fields key with
      | none => some none
      | some JValue.jnull => some none
      | some (JValue.jstr s) => some (some s)
      | some _ => none
    match fieldStr "title", fieldStr "text", fieldStr "location" with
    | some t, some x, some l => some ⟨t, x, l⟩
    | _, _, _ => none
  | JValue.jnull => none
  | _ => some ⟨none, none, none⟩

def decodeMkDocs : JValue → Option (List MkDoc)
  | JValue.jnull => none
  | JValue.jobj fields =>
    match jGet fields "docs" with
    | none => some []
    | some JValue.jnull => some []
    | some (JValue.jarr xs) => xs.mapM decodeMkDoc
    | some _ => none
  | _ => some []

/-- Model of `parseMkDocsIndex`; `none` models a thrown exception. -/
def parseMkDocsIndex (raw baseUrl query : String) : Option (List SearchResult) := do
  let j ← jsonParse raw
  let docs ← decodeMkDocs j
  pure ((docs.filter (fun doc =>
      containsSubStr (toLowerStr (doc.title.getD "")) query ||
        containsSubStr (toLowerStr (doc.text.getD "")) query)).map (fun doc =>
    { title := doc.title.getD "Untitled"
      url := match doc.location with
        | some loc => if loc = "" then baseUrl else toAbsoluteUrl baseUrl loc
        | none => baseUrl
      snippet := jsSliceTo (doc.text.getD "") 200
      source := "mkdocs" }))

/-! #### Sphinx index parser -/

def allowedTokenChar (c : Char) : Bool :=
  ('a' ≤ c && c ≤ 'z') || c.isDigit || c = '_' || c = '-'

def tokenRunsGo (cur : List Char) : List Char → List String
  | [] => if cur.isEmpty then [] else [cur.reverse.asString]
  | c :: rest =>
    if allowedTokenChar c then tokenRunsGo (c :: cur) rest
    else if cur.isEmpty then tokenRunsGo [] rest
    else cur.reverse.asString :: tokenRunsGo [] rest

/-- Model of `tokenizeQuery`: lower-case, split on runs of characters outside
`[a-z0-9_-]`, trim, drop empties.  The JS split also yields empty boundary
pieces; `filter(Boolean)` removes them, so only the maximal runs remain. -/
def tokenizeQuery (query : String) : List String :=
  ((tokenRunsGo [] (toLowerStr query).data).map jsTrim).filter (fun t => t ≠ "")

/-- Model of `extractSphinxDocIds`; the argument is an `unknown` lookup result
(`none` models `undefined`). -/
def extractSphinxDocIds : Option JValue → List Int
  | some (JValue.jnum n) => [n]
  | some (JValue.jarr entries) =>
    entries.foldr (fun e acc =>
      match e with
      | JValue.jnum n => n :: acc
      | JValue.jarr (JValue.jnum n :: _) => n :: acc
      | _ => acc) []
  | _ => []

/-- Structured form of the decoded Sphinx `Search.setIndex` payload.  JS
out-of-range array reads (`undefined`) are modelled by `Option`-returning
index lookups. -/
structure SphinxData where
  docnames : List String
  titles : List String
  filenames : List String
  terms : List (String × JValue)

def intGet (l : List String) (i : Int) : Option String :=
  match i with
  | Int.ofNat n => l.get? n
  | Int.negSucc _ => none

def termsGet (terms : List (String × JValue)) (key : String) : Option JValue :=
  jGet terms key

/-- Insertion-order score map modelling the JS `Map`: `set` updates in place,
new keys append. -/
def mapGet (m : List (Int × Int)) (k : Int) : Option Int :=
  (m.find? (fun p => p.1 = k)).map (fun p => p.2)

def mapSet (m : List (Int × Int)) (k v : Int) : List (Int × Int) :=
  if (m.find? (fun p => p.1 = k)).isSome then
    m.map (fun p => if p.1 = k then (k, v) else p)
  else m ++ [(k, v)]

def scoresAfterTokens (terms : List (String × JValue)) (tokens : List String) :
    List (Int × Int) :=
  tokens.foldl (fun m token =>
    let docIds := extractSphinxDocIds (termsGet terms token)
    docIds.foldl (fun m docId => mapSet m docId ((mapGet m docId).getD 0 + 2)) m) []

def scoresAfterTitles (docnames titles : List String) (query : String)
    (m0 : List (Int × Int)) : List (Int × Int) :=
  titles.enum.foldl (fun m p =>
    let titleLower := toLowerStr p.2
    let docnameLower := match docnames.get? p.1 with
      | some d => toLowerStr d
      | none => ""
    if containsSubStr titleLower query || containsSubStr docnameLower query then
      mapSet m (Int.ofNat p.1) ((mapGet m (Int.ofNat p.1)).getD 0 + 3)
    else m) m0

/-- Stable descending insertion by score, modelling the stable JS
`sort((a, b) => b[1] - a[1])`. -/
def insertDesc (x : Int × Int) : List (Int × Int) → List (Int × Int)
  | [] => [x]
  | y :: ys => if y.2 ≥ x.2 then y :: insertDesc x ys else x :: y :: ys

def sortDesc (l : List (Int × Int)) : List (Int × Int) :=
  l.foldl (fun acc x => insertDesc x acc) []

def sphinxScores (d : SphinxData) (query : String) : List (Int × Int) :=
  scoresAfterTitles d.docnames d.titles query
    (scoresAfterTokens d.terms (tokenizeQuery query))

def rankedEntries (d : SphinxData) (query : String) : List (Int × Int) :=
  (sortDesc (sphinxScores d query)).take 20

def sphinxEntry (d : SphinxData) (baseUrl : String) (idx : Int) : SearchResult :=
  let filename := match intGet d.filenames idx with
    | some f => f
    | none =>
      match intGet d.docnames idx with
      | some dn => if dn = "" then "" else dn ++ ".html"
      | none => ""
  let url := if filename = "" then baseUrl else toAbsoluteUrl baseUrl filename
  let title := match intGet d.titles idx with
    | some t => t
    | none =>
      match intGet d.docnames idx with
      | some dn => dn
      | none => url
  ⟨title, url, "", "sphinx"⟩

/-- Core of `parseSphinxIndex` after the payload has been decoded: score,
rank descending, take the top 20, map to results, and drop results whose
title or url is the empty string (the `Boolean(...)` filter). -/
def parseSphinxIndexData (d : SphinxData) (baseUrl query : String) : List SearchResult :=
  ((rankedEntries d query).map (fun p => sphinxEntry d baseUrl p.1)).filter
    (fun e => e.title ≠ "" && e.url ≠ "")

/-! #### Sphinx payload extraction (the `Search.setIndex` regexes) -/

/-- Index of the last occurrence of a literal pattern, implementing the
greedy `[\s\S]*` between the opening brace and the closing delimiter. -/
def lastMatchIdxGo (pat : List Char) : List Char → Nat → Option Nat
  | [], _ => none
  | c :: rest, i =>
    match lastMatchIdxGo pat rest (i + 1) with
    | some j => some j
    | none => if listStartsWith pat (c :: rest) then some i else none

/-- Attempts `/Search\.setIndex\((\{[\s\S]*\})\);/` at the current position. -/
def setIndexAttempt (s : List Char) : Option String :=
  match dropLit "Search.setIndex(".data s with
  | none => none
  | some t =>
    match t with
    | c :: _ =>
      if c = lbrace then
        (lastMatchIdxGo [rbrace, ')', ';'] t 0).map (fun j => (t.take (j + 1)).asString)
      else none
    | [] => none

/-- Attempts `/var\s+index\s*=\s*(\{[\s\S]*\});/` at the current position. -/
def varIndexAttempt (s : List Char) : Option String :=
  match dropLit "var".data s with
  | none => none
  | some t1 =>
    let ws1 := t1.takeWhile jsWhitespace
    if ws1.isEmpty then none else
    match dropLit "index".data (t1.drop ws1.length) with
    | none => none
    | some t2 =>
      match t2.dropWhile jsWhitespace with
      | '=' :: t4 =>
        let t5 := t4.dropWhile jsWhitespace
        match t5 with
        | c :: _ =>
          if c = lbrace then
            (lastMatchIdxGo [rbrace, ';'] t5 0).map (fun j => (t5.take (j + 1)).asString)
          else none
        | [] => none
      | _ => none

def scanSetIndex : List Char → Option String
  | [] => none
  | c :: rest => (setIndexAttempt (c :: rest)).orElse (fun _ => scanSetIndex rest)

def scanVarIndex : List Char → Option String
  | [] => none
  | c :: rest => (varIndexAttempt (c :: rest)).orElse (fun _ => scanVarIndex rest)

def extractSphinxPayload (raw : String) : Option String :=
  (scanSetIndex raw.data).orElse (fun _ => scanVarIndex raw.data)

def decodeStrList : Option JValue → Option (List String)
  | none => some []
  | some JValue.jnull => some []
  | some (JValue.jarr xs) =>
    xs.mapM (fun v =>
      match v with
      | JValue.jstr s => some s
      | _ => none)
  | some _ => none

def decodeTerms : Option JValue → Option (List (String × JValue))
  | none => some []
  | some JValue.jnull => some []
  | some (JValue.jobj fields) => some fields
  | some _ => some []

def decodeSphinx : JValue → Option SphinxData
  | JValue.jnull => none
  | JValue.jobj fields => do
    let dn ← decodeStrList (jGet fields "docnames")
    let ti ← decodeStrList (jGet fields "titles")
    let fn ← decodeStrList (jGet fields "filenames")
    let tm ← decodeTerms (jGet fields "terms")
    pure ⟨dn, ti, fn, tm⟩
  | _ => some ⟨[], [], [], []⟩

/-- Model of `parseSphinxIndex` on the raw index body; a missing
`Search.setIndex` payload returns the empty list, a malformed payload throws
(`none`). -/
def parseSphinxIndex (raw baseUrl query : String) : Option (List SearchResult) :=
  match extractSphinxPayload raw with
  | none => some []
  | some json => do
    let j ← jsonParse json
    let d ← decodeSphinx j
    pure (parseSphinxIndexData d baseUrl query)

/-! #### Sitemap parser -/

/-- Successive non-overlapping matches of `/<loc>([^<]+)<\/loc>/gi`.  The
fuel is always sufficient because every step consumes at least one
character. -/
def sitemapLocsGo : Nat → List Char → List String
  | 0, _ => []
  | _ + 1, [] => []
  | fuel + 1, c :: rest =>
    if listStartsWithCI "<loc>".data (c :: rest) then
      let after := (c :: rest).drop 5
      let run := after.takeWhile (fun ch => ch ≠ '<')
      if !run.isEmpty && listStartsWithCI "</loc>".data (after.drop run.length) then
        run.asString :: sitemapLocsGo fuel (after.drop (run.length + 6))
      else sitemapLocsGo fuel rest
    else sitemapLocsGo fuel rest

def sitemapLocs (raw : String) : List String :=
  sitemapLocsGo (raw.length + 1) raw.data

def parseSitemap (raw baseUrl query : String) : List SearchResult :=
  ((sitemapLocs raw).filter (fun loc => containsSubStr (toLowerStr loc) query)).map
    (fun loc =>
      { title := match (splitOnChar '/' loc).getLast? with
          | some lastSeg => if lastSeg = "" then loc else lastSeg
          | none => loc
        url := toAbsoluteUrl baseUrl loc
        snippet := ""
        source := "sitemap" })

/-! #### searchDocumentation

The injected fetch capability is explicit (`none` models a network error or
non-2xx response, which `fetchText` turns into a thrown error).  Each
function returns, alongside its outcome, the ordered list of URLs it
fetched, so that frame properties about network access can be stated. -/

/-- One index probe inside the try block: a failed fetch or a parser throw is
caught and the loop continues (`none`); non-empty parser results are returned
(`some`).  The two sequential `if` statements of the source collapse to this
chain because no index path ends in both `.json` and `.js`. -/
def attemptIndex (docsetType : Option String) (nq base path : String)
    (body : Option String) : Option (List SearchResult) :=
  match body with
  | none => none
  | some raw =>
    if strEndsWith path ".json" &&
        (decide (docsetType = some "mkdocs") || decide (docsetType = none)) then
      match parseMkDocsIndex raw base nq with
      | none => none
      | some results => if results.isEmpty then none else some results
    else if strEndsWith path ".js" &&
        (decide (docsetType = some "sphinx") || decide (docsetType = none)) then
      match parseSphinxIndex raw base nq with
      | none => none
      | some results => if results.isEmpty then none else some results
    else none

def tryPathsOnBase (fetch : String → Option String) (docsetType : Option String)
    (nq base : String) : List String → Option (List SearchResult) × List String
  | [] => (none, [])
  | p :: ps =>
    let indexUrl := toAbsoluteUrl base p
    match attemptIndex docsetType nq base p (fetch indexUrl) with
    | some results => (some results, [indexUrl])
    | none =>
      let ih := tryPathsOnBase fetch docsetType nq base ps
      (ih.1, indexUrl :: ih.2)

def tryIndexOnBases (fetch : String → Option String) (docsetType : Option String)
    (nq : String) (pathsToTry : List String) :
    List String → Option (List SearchResult) × List String
  | [] => (none, [])
  | b :: bs =>
    match tryPathsOnBase fetch docsetType nq b pathsToTry with
    | (some results, tr) => (some results, tr)
    | (none, tr) =>
      let ih := tryIndexOnBases fetch docsetType nq pathsToTry bs
      (ih.1, tr ++ ih.2)

/-- The sitemap fallback: the whole loop sits inside a single try block, so
the first failed fetch aborts the loop (`none` outcome with no further
fetches). -/
def sitemapLoop (fetch : String → Option String) (nq : String) :
    List String → Option (List SearchResult) × List String
  | [] => (none, [])
  | b :: bs =>
    let u := toAbsoluteUrl b "sitemap.xml"
    match fetch u with
    | none => (none, [u])
    | some raw =>
      let results := parseSitemap raw b nq
      if results.isEmpty then
        let ih := sitemapLoop fetch nq bs
        (ih.1, u :: ih.2)
      else (some results, [u])

/-- The hint-dependent restriction of the probe path list (an mkdocs hint
keeps only `.json` paths, a sphinx hint only `.js` paths). -/
def pathsToTryFor (docsetType : Option String) : List String :=
  if docsetType = some "mkdocs" then
    searchIndexPaths.filter (fun p => strEndsWith p ".json")
  else if docsetType = some "sphinx" then
    searchIndexPaths.filter (fun p => strEndsWith p ".js")
  else searchIndexPaths

/-- Model of `searchDocumentation`: result plus the ordered fetch trace.
`Except.error` models the call throwing (only possible from
`buildSearchBaseCandidates`). -/
def searchDocumentation (fetch : String → Option String) (baseUrl query : String)
    (docsetType : Option String) : Except String (List SearchResult) × List String :=
  let normalizedQuery := normalizeQuery query
  if normalizedQuery = "" then (Except.ok [], [])
  else
    match buildSearchBaseCandidates baseUrl with
    | Except.error e => (Except.error e, [])
    | Except.ok bases =>
      match tryIndexOnBases fetch docsetType normalizedQuery (pathsToTryFor docsetType)
          bases with
      | (some results, tr) => (Except.ok results, tr)
      | (none, tr) =>
        match sitemapLoop fetch normalizedQuery bases with
        | (some results, tr2) => (Except.ok results, tr ++ tr2)
        | (none, tr2) => (Except.ok [], tr ++ tr2)

/-! ### Fetch orchestrator (src/lib/docset/extract.ts, slash-retry version)

`resolveTargetUrl`, `stripHtmlExtension` and `fetchDocumentationMarkdown`.
The DOM extractor and the Turndown converter are external collaborators of
the orchestrator and enter as function parameters; the Apple rendering
pipeline (the `hig`/`reference` modules, outside the docset core) is
abstracted as an oracle that either produces a result or fails, in which
case the source falls through to the generic fetch with `forceGeneric`
set.  All verified claims concern non-Apple requests, for which that branch
is skipped entirely. -/

def newUrlRec (input : String) (base : UrlRec) : Option UrlRec :=
  if hasHttpScheme input then parseUrl input else some (resolveRel input base)

def resolveTargetUrl (baseUrl : String) (path : Option String) : Except String String :=
  let trimmedBase := jsTrim baseUrl
  if trimmedBase = "" then Except.error "baseUrl is required"
  else
    let trimmedPath := path.map jsTrim
    let pathIsAbsolute :=
      match trimmedPath with
      | some tp => tp ≠ "" && hasHttpScheme tp
      | none => false
    if pathIsAbsolute then Except.ok (trimmedPath.getD "")
    else
      let baseWithScheme :=
        if hasHttpScheme trimmedBase then trimmedBase else "https://" ++ trimmedBase
      match parseUrl baseWithScheme with
      | none => Except.error "invalid URL"
      | some parsedBase =>
        let basePath := parsedBase.path
        let looksLikeFile := endsWithDotExt basePath
        let baseDir :=
          if strEndsWith basePath "/" then basePath
          else if looksLikeFile then pathDirOf basePath
          else basePath ++ "/"
        match trimmedPath with
        | none => Except.ok (serializeUrl parsedBase)
        | some tp =>
          if tp = "" then Except.ok (serializeUrl parsedBase)
          else
            match newUrl baseDir (some (urlOrigin parsedBase)) with
            | none => Except.error "invalid URL"
            | some baseForResolve =>
              let resolvedPath :=
                if strStartsWith tp "/" && baseDir ≠ "/" then (tp.data.drop 1).asString
                else tp
              match newUrlRec resolvedPath baseForResolve with
              | none => Except.error "invalid URL"
              | some u => Except.ok (serializeUrl u)

/-- Record-level body of `stripHtmlExtension`.  The source tests
`endsWith("index.html")` (without a leading slash) yet always slices off
`"/index.html".length` characters; the translation preserves this
faithfully. -/
def stripExt (p1 : UrlRec) : UrlRec :=
  if strEndsWith p1.path "index.html" then
    let sliced := (p1.path.data.take (p1.path.length - "/index.html".length)).asString
    { p1 with path := if sliced = "" then "/" else sliced }
  else if strEndsWith p1.path "glossary.html" then p1
  else if strEndsWith p1.path ".html" then
    { p1 with path := (p1.path.data.take (p1.path.length - ".html".length)).asString }
  else p1

def stripSlash (p2 : UrlRec) : UrlRec :=
  if p2.path ≠ "/" && strEndsWith p2.path "/" then
    { p2 with path := (p2.path.data.take (p2.path.length - 1)).asString }
  else p2

def stripRec (parsed : UrlRec) : UrlRec :=
  stripSlash (stripExt { parsed with hash := "" })

def stripHtmlExtension (url : String) : String :=
  match parseUrl url with
  | none => url
  | some parsed => serializeUrl (stripRec parsed)

/-- Model of `fetchHtml`: a fetch failure or non-2xx response throws. -/
def fetchHtml (fetch : String → Option String) (url : String) : Except String String :=
  match fetch url with
  | some body => Except.ok body
  | none => Except.error ("Failed to fetch HTML: " ++ url)

structure DocsetRequest where
  baseUrl : String
  path : Option String := none
  docsetType : Option String := none

structure DocResult where
  markdown : String
  url : String
  docsetType : String
deriving DecidableEq, Repr

def fetchDocumentationMarkdown (fetch : String → Option String)
    (appleAttempt : Option DocResult)
    (extractDocContent : String → String → String × String)
    (htmlToMarkdown : String → String)
    (request : DocsetRequest) : Except String DocResult := do
  let resolvedUrl ← resolveTargetUrl request.baseUrl request.path
  let targetUrl := stripHtmlExtension resolvedUrl
  let isApple := decide (request.docsetType = some "apple") || isAppleHost targetUrl
  let genericFallbackUrl := targetUrl
  let (forceGeneric, appleEarly) :=
    if isApple then
      match appleAttempt with
      | some r => (false, some r)
      | none => (true, (none : Option DocResult))
    else (false, none)
  match appleEarly with
  | some r => pure r
  | none =>
    let fetched : Except String (String × String) :=
      match fetchHtml fetch genericFallbackUrl with
      | Except.ok h => Except.ok (h, genericFallbackUrl)
      | Except.error err =>
        -- catch block.  The trailing-slash retry assigns html and fetchUrl on
        -- success, but the branch that follows unconditionally either
        -- refetches the pre-normalization URL or rethrows the original
        -- error, so the retry's result is discarded (a dead store in the
        -- source, translated faithfully).
        let _slashRetry : Option (String × String) :=
          if !(strEndsWith genericFallbackUrl "/") && !(endsWithDotExt genericFallbackUrl) then
            match fetchHtml fetch (genericFallbackUrl ++ "/") with
            | Except.ok h => some (h, genericFallbackUrl ++ "/")
            | Except.error _ => none
          else none
        if resolvedUrl ≠ targetUrl then
          match fetchHtml fetch resolvedUrl with
          | Except.ok h => Except.ok (h, resolvedUrl)
          | Except.error e2 => Except.error e2
        else Except.error err
    match fetched with
    | Except.error e => Except.error e
    | Except.ok (html, fetchUrl) =>
      let detected :=
        if forceGeneric then "generic"
        else request.docsetType.getD (detectDocsetType html fetchUrl)
      let extracted := extractDocContent html detected
      let title := extracted.1
      let contentHtml := extracted.2
      let markdown0 := htmlToMarkdown contentHtml
      let md1AndType :=
        if markdown0 = "" then (htmlToMarkdown html, "html") else (markdown0, detected)
      let markdown1 := md1AndType.1
      let docsetType := md1AndType.2
      let markdown2 :=
        if title ≠ "" && !(strStartsWith markdown1 ("# " ++ title)) then
          "# " ++ title ++ "\n\n" ++ markdown1
        else markdown1
      pure ⟨markdown2, fetchUrl, docsetType⟩

/-! ### Derived definition: the URL normalization of the document-fetch path -/

/-- Normalization as the fetch path applies it to a bare base URL:
`resolveTargetUrl` with no path argument followed by `stripHtmlExtension`. -/
def normalizeUrl (baseUrl : String) : Except String String :=
  (resolveTargetUrl baseUrl none).map stripHtmlExtension

/-! ### Theorems -/

/-- Claim C9: for every baseUrl and every query that is blank after trimming,
searchDocumentation returns the empty result list having performed no fetch
at all (the trace of fetched URLs is empty) and without raising any error. -/
theorem searchDocumentation_blank_query_no_fetch
    (fetch : String → Option String) (baseUrl query : String)
    (docsetType : Option String) (h : jsTrim query = "") :
    searchDocumentation fetch baseUrl query docsetType = (Except.ok [], []) := by
  have hq : normalizeQuery query = "" := by
    unfold normalizeQuery
    rw [h]
    rfl
  unfold searchDocumentation
  rw [hq]
  rfl

theorem searchDocumentation_blank_query_no_fetch_witness :
    jsTrim "  " = "" ∧
      searchDocumentation (fun _ => none) "https://docs.example.com" "  " none =
        (Except.ok [], []) :=
  ⟨by decide,
    searchDocumentation_blank_query_no_fetch (fun _ => none) "https://docs.example.com" "  "
      none (by decide)⟩

/-- Claim C1 (code bug): the trailing-slash retry is dead code.  For the
non-Apple request with base `https://docs.example.com/guide` (no trailing
slash, no dot extension, normalization is the identity here), the initial
fetch fails while the fetch of the slash-appended URL succeeds, yet
`fetchDocumentationMarkdown` rethrows the original fetch error instead of
returning the slashed URL with its fetched body: the catch block
unconditionally overwrites or discards the successful retry. -/
theorem fetchDocumentationMarkdown_slash_retry_discarded :
    (fun u => if u = "https://docs.example.com/guide/" then some "<main>hi</main>" else none)
        "https://docs.example.com/guide/" = some "<main>hi</main>" ∧
      resolveTargetUrl "https://docs.example.com/guide" none =
        Except.ok "https://docs.example.com/guide" ∧
      stripHtmlExtension "https://docs.example.com/guide" =
        "https://docs.example.com/guide" ∧
      fetchDocumentationMarkdown
          (fun u => if u = "https://docs.example.com/guide/" then some "<main>hi</main>" else none)
          none (fun _ _ => ("", "")) (fun s => s)
          { baseUrl := "https://docs.example.com/guide" } =
        Except.error "Failed to fetch HTML: https://docs.example.com/guide" :=
  ⟨rfl, rfl, rfl, rfl⟩

/-- Claim C5 (code bug): `stripHtmlExtension` tests `endsWith("index.html")`
without the leading slash yet slices off `"/index.html".length` characters,
so `/myindex.html` is mangled to `/m` instead of having only its `.html`
extension removed.  The other normalization cases behave as claimed: a
trailing `/index.html` collapses to the parent directory (root becomes `/`),
`glossary.html` survives with only its fragment stripped, a plain `.html`
extension is removed, and a single trailing slash is stripped. -/
theorem stripHtmlExtension_myindex_mangled :
    stripHtmlExtension "https://example.com/myindex.html" = "https://example.com/m" ∧
      stripHtmlExtension "https://example.com/a/index.html" = "https://example.com/a" ∧
      stripHtmlExtension "https://example.com/index.html" = "https://example.com/" ∧
      stripHtmlExtension "https://docs.example.com/guide/glossary.html#terms" =
        "https://docs.example.com/guide/glossary.html" ∧
      stripHtmlExtension "https://example.com/page.html" = "https://example.com/page" ∧
      stripHtmlExtension "https://example.com/dir/" = "https://example.com/dir" :=
  ⟨rfl, rfl, rfl, rfl, rfl, rfl⟩

/-- Claim C6 (code bug): when converting the extracted fragment yields empty
Markdown, the orchestrator converts the whole fetched page, prepends the
extracted title, and tags the result with the bare-HTML fallback type
`html` — but `html` is not a member of the `docsetTypes` enumeration, which
lists only the ten base types, contradicting the annotation
`let docsetType: DocsetType` under which the source assigns it. -/
theorem fetchDocumentationMarkdown_empty_extraction_html_fallback :
    fetchDocumentationMarkdown
        (fun u => if u = "https://docs.example.com/page" then some "<div></div>" else none)
        none (fun _ _ => ("T", ""))
        (fun s => if s = "" then "" else "converted")
        { baseUrl := "https://docs.example.com/page" } =
      Except.ok
        { markdown := "# T\n\nconverted", url := "https://docs.example.com/page",
          docsetType := "html" } ∧
      "html" ∉ docsetTypes :=
  ⟨rfl, by decide⟩

/-- Claim C2 counterexample: a document carrying both a Sphinx generator meta
tag and the MkDocs `md-content` wrapper class, served from a non-first-party
host, is detected as `mkdocs`, not `sphinx`: each type combines its
generator keyword and its CSS markers into one check, and the MkDocs check
runs before the Sphinx one, so a CSS marker match can outrank a generator
meta match. -/
theorem detectDocsetType_sphinx_meta_loses_to_mkdocs_markers :
    getGenerator
        "<meta name=\"generator\" content=\"Sphinx\"><div class=\"md-content__inner\">x</div>" =
      "sphinx" ∧
      hasAny
        "<meta name=\"generator\" content=\"Sphinx\"><div class=\"md-content__inner\">x</div>"
        ["md-content", "data-md-color-scheme"] = true ∧
      isAppleHost "https://example.org/doc" = false ∧
      detectDocsetType
        "<meta name=\"generator\" content=\"Sphinx\"><div class=\"md-content__inner\">x</div>"
        "https://example.org/doc" = "mkdocs" :=
  ⟨rfl, rfl, rfl, rfl⟩

/-- Claim C2 (amended): for every document whose generator meta names Sphinx
and which carries MkDocs CSS markers, served from a non-first-party host and
free of Docusaurus signals, `detectDocsetType` returns `mkdocs` — the
per-type checks combine generator keyword and CSS markers and are evaluated
in declaration order, so the MkDocs marker check precedes the Sphinx
generator check. -/
theorem detectDocsetType_mkdocs_markers_beat_sphinx_meta
    (html url : String)
    (happle : isAppleHost url = false)
    (hgen_doc : containsSubStr (getGenerator html) "docusaurus" = false)
    (hmark_doc : hasAny html ["id=\"__docusaurus\"", "data-docusaurus"] = false)
    (_hgen_sphinx : containsSubStr (getGenerator html) "sphinx" = true)
    (hmark_mk : hasAny html ["md-content", "data-md-color-scheme"] = true) :
    detectDocsetType html url = "mkdocs" := by
  unfold detectDocsetType
  simp only [happle, hgen_doc, hmark_doc, hmark_mk, Bool.false_or, Bool.or_true,
    if_false, if_true, Bool.false_eq_true, if_true_left]

theorem detectDocsetType_mkdocs_markers_beat_sphinx_meta_witness :
    detectDocsetType
        "<meta name=\"generator\" content=\"Sphinx\"><div class=\"md-content__inner\">x</div>"
        "https://example.org/doc" = "mkdocs" :=
  detectDocsetType_mkdocs_markers_beat_sphinx_meta _ _ rfl rfl rfl rfl rfl

/-! #### Ranking lemmas for the Sphinx parser -/

theorem mem_insertDesc {x y : Int × Int} :
    ∀ {l : List (Int × Int)}, y ∈ insertDesc x l → y = x ∨ y ∈ l := by
  intro l
  induction l with
  | nil => intro h; simp [insertDesc] at h; exact Or.inl h
  | cons z zs ih =>
    intro h
    unfold insertDesc at h
    split at h
    · rcases List.mem_cons.mp h with h1 | h2
      · exact Or.inr (h1 ▸ List.mem_cons_self z zs)
      · rcases ih h2 with h3 | h4
        · exact Or.inl h3
        · exact Or.inr (List.mem_cons_of_mem z h4)
    · rcases List.mem_cons.mp h with h1 | h2
      · exact Or.inl h1
      · exact Or.inr h2

theorem pairwise_insertDesc (x : Int × Int) :
    ∀ {l : List (Int × Int)}, List.Pairwise (fun a b => b.2 ≤ a.2) l →
      List.Pairwise (fun a b => b.2 ≤ a.2) (insertDesc x l) := by
  intro l
  induction l with
  | nil => intro _; simp [insertDesc]
  | cons z zs ih =>
    intro h
    rcases List.pairwise_cons.mp h with ⟨hz, hzs⟩
    unfold insertDesc
    split
    · refine List.pairwise_cons.mpr ⟨?_, ih hzs⟩
      intro y hy
      rcases mem_insertDesc hy with rfl | hmem
      · omega
      · exact hz y hmem
    · refine List.pairwise_cons.mpr ⟨?_, h⟩
      intro y hy
      rcases List.mem_cons.mp hy with rfl | hmem
      · omega
      · have := hz y hmem
        omega

theorem sortDesc_pairwise_aux :
    ∀ (l acc : List (Int × Int)), List.Pairwise (fun a b => b.2 ≤ a.2) acc →
      List.Pairwise (fun a b => b.2 ≤ a.2) (l.foldl (fun a x => insertDesc x a) acc)
  | [], _, h => h
  | x :: xs, acc, h => sortDesc_pairwise_aux xs (insertDesc x acc) (pairwise_insertDesc x h)

theorem intGet_mem {l : List String} {i : Int} {s : String} (h : intGet l i = some s) :
    s ∈ l := by
  unfold intGet at h
  split at h
  · exact List.get?_mem h
  · exact absurd h (by simp)

/-- Claim C4 counterexample: a matched document id with neither a filenames
entry nor a docname is not dropped; its url and title both fall back to the
base URL itself (the final filter only removes empty strings), contradicting
the claim that no result may fall back to the base URL. -/
theorem parseSphinxIndexData_base_url_fallback_kept :
    parseSphinxIndexData ⟨[], [], [], [("alpha", JValue.jnum 5)]⟩ "https://x/" "alpha" =
      [{ title := "https://x/", url := "https://x/", snippet := "", source := "sphinx" }] :=
  rfl

/-- Claim C4 (amended): `parseSphinxIndexData` ranks matched documents by
descending score (+2 per query-token posting, +3 when the full query occurs
in a title or docname, as the concrete index below exhibits), takes at most
the top 20, and for each produced entry sets url to the filename resolved
against the base when a filenames entry exists, else to `docname + ".html"`
resolved against the base, else to the base URL itself — entries lacking
both a filename and a docname are kept with the base URL as url (only
entries whose computed title or url is the empty string are dropped). -/
theorem parseSphinxIndexData_ranking_amended :
    (∀ (d : SphinxData) (b q : String), (parseSphinxIndexData d b q).length ≤ 20) ∧
      (∀ l : List (Int × Int),
        List.Pairwise (fun a b => b.2 ≤ a.2) (sortDesc l)) ∧
      (∀ (d : SphinxData) (b q : String), ∀ r ∈ parseSphinxIndexData d b q,
        r.url = b ∨ ∃ f, (f ∈ d.filenames ∨ ∃ dn ∈ d.docnames, f = dn ++ ".html") ∧
          r.url = toAbsoluteUrl b f) ∧
      parseSphinxIndexData
          ⟨["intro", "api", "guide"], ["Intro", "API alpha", "Guide"],
            ["intro.html", "api.html", "guide.html"],
            [("alpha", JValue.jarr [JValue.jnum 0, JValue.jarr [JValue.jnum 1, JValue.jnum 7]])]⟩
          "https://docs.example.com/en/stable/" "alpha" =
        [{ title := "API alpha", url := "https://docs.example.com/en/stable/api.html",
            snippet := "", source := "sphinx" },
          { title := "Intro", url := "https://docs.example.com/en/stable/intro.html",
            snippet := "", source := "sphinx" }] := by
  refine ⟨?_, ?_, ?_, rfl⟩
  · intro d b q
    unfold parseSphinxIndexData
    calc (((rankedEntries d q).map (fun p => sphinxEntry d b p.1)).filter
          (fun e => e.title ≠ "" && e.url ≠ "")).length
        ≤ ((rankedEntries d q).map (fun p => sphinxEntry d b p.1)).length :=
          List.length_filter_le _ _
      _ = (rankedEntries d q).length := List.length_map _ _
      _ ≤ 20 := by unfold rankedEntries; exact List.length_take_le _ _
  · intro l
    exact sortDesc_pairwise_aux l [] List.Pairwise.nil
  · intro d b q r hr
    unfold parseSphinxIndexData at hr
    have hr2 := List.mem_of_mem_filter hr
    rcases List.mem_map.mp hr2 with ⟨p, _, rfl⟩
    rcases hfn : intGet d.filenames p.1 with _ | f
    · rcases hdn : intGet d.docnames p.1 with _ | dn
      · left
        simp [sphinxEntry, hfn, hdn]
      · rcases heq : decide (dn = "") with _ | _
        · right
          refine ⟨dn ++ ".html", Or.inr ⟨dn, intGet_mem hdn, rfl⟩, ?_⟩
          have hne : dn ≠ "" := of_decide_eq_false heq
          have hne2 : dn ++ ".html" ≠ "" := by
            intro hc
            have hd := congrArg String.data hc
            have he : (dn ++ ".html").data = dn.data ++ ".html".data := rfl
            rw [he] at hd
            simp at hd
          simp [sphinxEntry, hfn, hdn, hne, hne2]
        · left
          have hdn0 : dn = "" := of_decide_eq_true heq
          simp [sphinxEntry, hfn, hdn, hdn0]
    · rcases heqf : decide (f = "") with _ | _
      · right
        have hne : f ≠ "" := of_decide_eq_false heqf
        exact ⟨f, Or.inl (intGet_mem hfn), by simp [sphinxEntry, hfn, hne]⟩
      · left
        have hf0 : f = "" := of_decide_eq_true heqf
        simp [sphinxEntry, hfn, hf0]

theorem parseSphinxIndexData_ranking_amended_witness :
    (parseSphinxIndexData ⟨[], [], [], [("alpha", JValue.jnum 5)]⟩ "https://x/" "alpha").length
        ≤ 20 ∧
      (({ title := "https://x/", url := "https://x/", snippet := "", source := "sphinx" } :
          SearchResult).url = "https://x/" ∨
        ∃ f, (f ∈ ([] : List String) ∨ ∃ dn ∈ ([] : List String), f = dn ++ ".html") ∧
          ({ title := "https://x/", url := "https://x/", snippet := "", source := "sphinx" } :
            SearchResult).url = toAbsoluteUrl "https://x/" f) :=
  ⟨parseSphinxIndexData_ranking_amended.1 ⟨[], [], [], [("alpha", JValue.jnum 5)]⟩ "https://x/"
      "alpha",
    parseSphinxIndexData_ranking_amended.2.2.1 ⟨[], [], [], [("alpha", JValue.jnum 5)]⟩
      "https://x/" "alpha" _ (by rw [parseSphinxIndexData_base_url_fallback_kept]; simp)⟩

/-! #### Control-flow lemmas for the search loops -/

theorem tryPathsOnBase_all_fail (fetch : String → Option String) (dt : Option String)
    (nq base : String) :
    ∀ paths : List String, (∀ p ∈ paths, fetch (toAbsoluteUrl base p) = none) →
      tryPathsOnBase fetch dt nq base paths =
        (none, paths.map (fun p => toAbsoluteUrl base p))
  | [], _ => rfl
  | p :: ps, h => by
    have hp := h p (List.mem_cons_self p ps)
    have ih := tryPathsOnBase_all_fail fetch dt nq base ps
      (fun q hq => h q (List.mem_cons_of_mem p hq))
    simp [tryPathsOnBase, hp, attemptIndex, ih]

theorem tryIndexOnBases_all_fail (fetch : String → Option String) (dt : Option String)
    (nq : String) (pathsToTry : List String) :
    ∀ bases : List String,
      (∀ b ∈ bases, ∀ p ∈ pathsToTry, fetch (toAbsoluteUrl b p) = none) →
      tryIndexOnBases fetch dt nq pathsToTry bases =
        (none, bases.flatMap (fun b => pathsToTry.map (fun p => toAbsoluteUrl b p)))
  | [], _ => rfl
  | b :: bs, h => by
    have hb := tryPathsOnBase_all_fail fetch dt nq b pathsToTry
      (h b (List.mem_cons_self b bs))
    have ih := tryIndexOnBases_all_fail fetch dt nq pathsToTry bs
      (fun b2 hb2 => h b2 (List.mem_cons_of_mem b hb2))
    simp [tryIndexOnBases, hb, ih]

/-- Claim C3 counterexample: with candidate bases
`https://docs.example.com/guide/` and `https://docs.example.com/`, all index
probes failing, the first base's sitemap fetch failing and the second base's
sitemap containing a `<loc>` entry matching the query, `searchDocumentation`
returns the empty list: the single try block around the sitemap loop aborts
on the first per-candidate failure instead of advancing to the next
candidate whose entries would have matched. -/
theorem searchDocumentation_sitemap_abort_counterexample :
    parseSitemap "<loc>https://docs.example.com/guide/intro</loc>"
        "https://docs.example.com/" "intro" =
      [{ title := "intro", url := "https://docs.example.com/guide/intro", snippet := "",
          source := "sitemap" }] ∧
      buildSearchBaseCandidates "https://docs.example.com/guide/" =
        Except.ok ["https://docs.example.com/guide/", "https://docs.example.com/"] ∧
      (searchDocumentation
          (fun u =>
            if u = "https://docs.example.com/sitemap.xml" then
              some "<loc>https://docs.example.com/guide/intro</loc>"
            else none)
          "https://docs.example.com/guide/" "intro" none).1 = Except.ok [] :=
  ⟨rfl, rfl, rfl⟩

/-- Claim C3 (amended): when all structured index probes across all candidate
bases fail, the sitemap fallback fetches `sitemap.xml` at the candidate bases
in order inside a single try block, so a failure at the first candidate's
sitemap aborts the whole fallback and yields the empty result list — it does
not advance to the next candidate — and the call still never raises an
exception: whatever the remaining candidates' sitemaps would contain, the
result is `Except.ok []`. -/
theorem searchDocumentation_sitemap_first_failure_aborts
    (fetch : String → Option String)
    (hidx : ∀ u ∈
      ["https://docs.example.com/guide/search/search_index.json",
        "https://docs.example.com/guide/searchindex.json",
        "https://docs.example.com/guide/search.json",
        "https://docs.example.com/guide/search-index.json",
        "https://docs.example.com/guide/searchindex.js",
        "https://docs.example.com/search/search_index.json",
        "https://docs.example.com/searchindex.json",
        "https://docs.example.com/search.json",
        "https://docs.example.com/search-index.json",
        "https://docs.example.com/searchindex.js"], fetch u = none)
    (hsm : fetch "https://docs.example.com/guide/sitemap.xml" = none) :
    (searchDocumentation fetch "https://docs.example.com/guide/" "intro" none).1 =
      Except.ok [] := by
  have hbases : buildSearchBaseCandidates "https://docs.example.com/guide/" =
      Except.ok ["https://docs.example.com/guide/", "https://docs.example.com/"] := rfl
  have hfail : ∀ b ∈ ["https://docs.example.com/guide/", "https://docs.example.com/"],
      ∀ p ∈ searchIndexPaths, fetch (toAbsoluteUrl b p) = none := by
    intro b hb p hp
    fin_cases hb <;> fin_cases hp <;>
      exact hidx _ (by decide)
  have hloop := tryIndexOnBases_all_fail fetch none "intro" searchIndexPaths
    ["https://docs.example.com/guide/", "https://docs.example.com/"] hfail
  have hsm2 : sitemapLoop fetch "intro"
      ["https://docs.example.com/guide/", "https://docs.example.com/"] =
      (none, ["https://docs.example.com/guide/sitemap.xml"]) := by
    unfold sitemapLoop
    rw [show toAbsoluteUrl "https://docs.example.com/guide/" "sitemap.xml" =
      "https://docs.example.com/guide/sitemap.xml" from rfl]
    simp only [hsm]
  unfold searchDocumentation
  rw [show normalizeQuery "intro" = "intro" from rfl, hbases]
  simp only [hsm2]
  show (match tryIndexOnBases fetch none "intro" searchIndexPaths
      ["https://docs.example.com/guide/", "https://docs.example.com/"] with
    | (some results, tr) => (Except.ok results, tr)
    | (none, tr) =>
      (Except.ok [], tr ++ ["https://docs.example.com/guide/sitemap.xml"])).1 =
    Except.ok []
  rw [hloop]

theorem searchDocumentation_sitemap_first_failure_aborts_witness :
    (searchDocumentation
        (fun u =>
          if u = "https://docs.example.com/sitemap.xml" then
            some "<loc>https://docs.example.com/guide/intro</loc>"
          else none)
        "https://docs.example.com/guide/" "intro" none).1 = Except.ok [] :=
  searchDocumentation_sitemap_first_failure_aborts
    (fun u =>
      if u = "https://docs.example.com/sitemap.xml" then
        some "<loc>https://docs.example.com/guide/intro</loc>"
      else none)
    (by intro u hu; fin_cases hu <;> rfl) rfl

/-! #### De-duplication and trace-head lemmas -/

theorem dedupeGo_spec (seen : List String) :
    ∀ l : List String, (dedupeGo seen l).Nodup ∧ ∀ v ∈ dedupeGo seen l, v ∉ seen := by
  intro l
  induction l generalizing seen with
  | nil => exact ⟨List.nodup_nil, by simp [dedupeGo]⟩
  | cons v rest ih =>
    by_cases hv : v ∈ seen
    · have := ih seen
      constructor
      · simpa [dedupeGo, hv] using (ih seen).1
      · intro x hx
        rw [dedupeGo] at hx
        simp only [if_pos hv] at hx
        exact (ih seen).2 x hx
    · rcases ih (v :: seen) with ⟨hnd, hnotin⟩
      constructor
      · rw [dedupeGo]
        simp only [if_neg hv]
        refine List.nodup_cons.mpr ⟨?_, hnd⟩
        intro hmem
        exact (hnotin v hmem) (List.mem_cons_self v seen)
      · intro x hx
        rw [dedupeGo] at hx
        simp only [if_neg hv] at hx
        rcases List.mem_cons.mp hx with rfl | hmem
        · exact hv
        · intro hxseen
          exact (hnotin x hmem) (List.mem_cons_of_mem v hxseen)

theorem dedupePreserveOrder_nodup (values : List String) :
    (dedupePreserveOrder values).Nodup :=
  (dedupeGo_spec [] values).1

theorem tryPathsOnBase_head (fetch : String → Option String) (dt : Option String)
    (nq base p : String) (ps : List String) :
    (tryPathsOnBase fetch dt nq base (p :: ps)).2.head? = some (toAbsoluteUrl base p) := by
  unfold tryPathsOnBase
  rcases h : attemptIndex dt nq base p (fetch (toAbsoluteUrl base p)) with _ | results <;>
    simp [h]

theorem tryIndexOnBases_head (fetch : String → Option String) (dt : Option String)
    (nq p : String) (ps : List String) (b : String) (bs : List String) :
    (tryIndexOnBases fetch dt nq (p :: ps) (b :: bs)).2.head? =
      some (toAbsoluteUrl b p) := by
  unfold tryIndexOnBases
  rcases h : tryPathsOnBase fetch dt nq b (p :: ps) with ⟨o, tr⟩
  have hh : tr.head? = some (toAbsoluteUrl b p) := by
    have h2 := tryPathsOnBase_head fetch dt nq b p ps
    rw [h] at h2
    exact h2
  rcases o with _ | results
  · cases tr with
    | nil => simp at hh
    | cons x xs =>
      simp only [List.head?_cons, Option.some.injEq] at hh
      simp [hh]
  · simpa using hh

theorem buildSearchBaseCandidates_nodup (baseUrl : String) (cands : List String)
    (h : buildSearchBaseCandidates baseUrl = Except.ok cands) : cands.Nodup := by
  unfold buildSearchBaseCandidates at h
  repeat' (first | split at h | dsimp only at h)
  all_goals
    first
      | exact Except.noConfusion h
      | (rw [Except.ok.injEq] at h
         rw [← h]
         exact dedupePreserveOrder_nodup _)

/-- Claim C7: buildSearchBaseCandidates returns a de-duplicated list ordered
most-specific first — for the versioned base the language/version root, then
origin plus first path segment, then the current directory with trailing
slash, then the bare origin root — every returned candidate list has no
duplicates, and under a Sphinx hint the first index probe issued by
searchDocumentation (the head of its fetch trace, for every fetch oracle) is
the derived root's `searchindex.js`, not a URL under the literal page
directory. -/
theorem buildSearchBaseCandidates_order_and_first_probe :
    buildSearchBaseCandidates "https://docs.example.com/en/stable/reference/foo/" =
      Except.ok ["https://docs.example.com/en/stable/", "https://docs.example.com/en/",
        "https://docs.example.com/en/stable/reference/foo/", "https://docs.example.com/"] ∧
      (∀ (baseUrl : String) (cands : List String),
        buildSearchBaseCandidates baseUrl = Except.ok cands → cands.Nodup) ∧
      ∀ fetch : String → Option String,
        (searchDocumentation fetch "https://docs.example.com/en/stable/reference/foo/"
            "alpha" (some "sphinx")).2.head? =
          some "https://docs.example.com/en/stable/searchindex.js" := by
  refine ⟨rfl, buildSearchBaseCandidates_nodup, ?_⟩
  intro fetch
  unfold searchDocumentation
  rw [show normalizeQuery "alpha" = "alpha" from rfl,
    show buildSearchBaseCandidates "https://docs.example.com/en/stable/reference/foo/" =
      Except.ok ["https://docs.example.com/en/stable/", "https://docs.example.com/en/",
        "https://docs.example.com/en/stable/reference/foo/", "https://docs.example.com/"]
      from rfl]
  show (match tryIndexOnBases fetch (some "sphinx") "alpha" ["searchindex.js"]
      ["https://docs.example.com/en/stable/", "https://docs.example.com/en/",
        "https://docs.example.com/en/stable/reference/foo/", "https://docs.example.com/"] with
    | (some results, tr) => (Except.ok results, tr)
    | (none, tr) =>
      match sitemapLoop fetch "alpha"
          ["https://docs.example.com/en/stable/", "https://docs.example.com/en/",
            "https://docs.example.com/en/stable/reference/foo/", "https://docs.example.com/"] with
      | (some results, tr2) => (Except.ok results, tr ++ tr2)
      | (none, tr2) => (Except.ok [], tr ++ tr2)).2.head? =
    some "https://docs.example.com/en/stable/searchindex.js"
  have hhead := tryIndexOnBases_head fetch (some "sphinx") "alpha" "searchindex.js" []
    "https://docs.example.com/en/stable/"
    ["https://docs.example.com/en/",
      "https://docs.example.com/en/stable/reference/foo/", "https://docs.example.com/"]
  rcases h : tryIndexOnBases fetch (some "sphinx") "alpha" ["searchindex.js"]
      ["https://docs.example.com/en/stable/", "https://docs.example.com/en/",
        "https://docs.example.com/en/stable/reference/foo/", "https://docs.example.com/"] with
    ⟨o, tr⟩
  rw [h] at hhead
  have hurl : toAbsoluteUrl "https://docs.example.com/en/stable/" "searchindex.js" =
      "https://docs.example.com/en/stable/searchindex.js" := rfl
  rw [hurl] at hhead
  rcases o with _ | results
  · cases tr with
    | nil => simp at hhead
    | cons x xs =>
      simp only [List.head?_cons, Option.some.injEq] at hhead
      rcases hsm : sitemapLoop fetch "alpha"
          ["https://docs.example.com/en/stable/", "https://docs.example.com/en/",
            "https://docs.example.com/en/stable/reference/foo/", "https://docs.example.com/"] with
        ⟨o2, tr2⟩
      rcases o2 with _ | results2 <;> simp [hhead]
  · simpa using hhead

theorem buildSearchBaseCandidates_order_and_first_probe_witness :
    (["https://docs.example.com/"] : List String).Nodup ∧
      (searchDocumentation (fun _ => none)
          "https://docs.example.com/en/stable/reference/foo/" "alpha"
          (some "sphinx")).2.head? =
        some "https://docs.example.com/en/stable/searchindex.js" :=
  ⟨buildSearchBaseCandidates_order_and_first_probe.2.1 "https://docs.example.com"
      ["https://docs.example.com/"] rfl,
    buildSearchBaseCandidates_order_and_first_probe.2.2 (fun _ => none)⟩

/-! #### Hint-restriction lemmas -/

theorem attemptIndex_other_hint (t : String) (h1 : t ≠ "mkdocs") (h2 : t ≠ "sphinx")
    (nq base path : String) (body : Option String) :
    attemptIndex (some t) nq base path body = none := by
  have hm : decide ((some t : Option String) = some "mkdocs") = false :=
    decide_eq_false (fun heq => h1 (Option.some.inj heq))
  have hs : decide ((some t : Option String) = some "sphinx") = false :=
    decide_eq_false (fun heq => h2 (Option.some.inj heq))
  have hn : decide ((some t : Option String) = none) = false :=
    decide_eq_false (by simp)
  unfold attemptIndex
  rcases body with _ | raw
  · rfl
  · simp [hm, hs, hn, h1, h2]

theorem tryPathsOnBase_other_hint (fetch : String → Option String) (t : String)
    (h1 : t ≠ "mkdocs") (h2 : t ≠ "sphinx") (nq base : String) :
    ∀ paths : List String, (tryPathsOnBase fetch (some t) nq base paths).1 = none
  | [] => rfl
  | p :: ps => by
    have ih := tryPathsOnBase_other_hint fetch t h1 h2 nq base ps
    simp [tryPathsOnBase, attemptIndex_other_hint t h1 h2, ih]

theorem tryIndexOnBases_other_hint (fetch : String → Option String) (t : String)
    (h1 : t ≠ "mkdocs") (h2 : t ≠ "sphinx") (nq : String) (pathsToTry : List String) :
    ∀ bases : List String, (tryIndexOnBases fetch (some t) nq pathsToTry bases).1 = none
  | [] => rfl
  | b :: bs => by
    have hb := tryPathsOnBase_other_hint fetch t h1 h2 nq b pathsToTry
    have ih := tryIndexOnBases_other_hint fetch t h1 h2 nq pathsToTry bs
    rcases hp : tryPathsOnBase fetch (some t) nq b pathsToTry with ⟨o, tr⟩
    rw [hp] at hb
    simp only at hb
    subst hb
    simp [tryIndexOnBases, hp, ih]

theorem parseSitemap_source (raw b q : String) :
    ∀ r ∈ parseSitemap raw b q, r.source = "sitemap" := by
  intro r hr
  unfold parseSitemap at hr
  rcases List.mem_map.mp hr with ⟨loc, _, rfl⟩
  rfl

theorem sitemapLoop_source (fetch : String → Option String) (nq : String) :
    ∀ (bases : List String) (rs : List SearchResult),
      (sitemapLoop fetch nq bases).1 = some rs → ∀ r ∈ rs, r.source = "sitemap"
  | [], rs, h => by simp [sitemapLoop] at h
  | b :: bs, rs, h => by
    rw [sitemapLoop] at h
    rcases hf : fetch (toAbsoluteUrl b "sitemap.xml") with _ | raw
    · rw [hf] at h
      simp at h
    · rw [hf] at h
      by_cases hres : (parseSitemap raw b nq).isEmpty
      · simp only [hres, if_true] at h
        exact sitemapLoop_source fetch nq bs rs h
      · simp only [hres, if_false, Bool.false_eq_true] at h
        simp only [Option.some.injEq] at h
        subst h
        exact parseSitemap_source raw b nq

/-- Claim C10: for every call to searchDocumentation with a docset hint other
than mkdocs or sphinx (and not undefined), neither index parser is ever
applied — the `.json`/`.js` branches are disabled by the hint check, so index
bodies are fetched at most and discarded — and consequently every result such
a call returns comes from the sitemap fallback and carries source `sitemap`
(in particular the result list is empty or all-sitemap). -/
theorem searchDocumentation_other_hint_sitemap_only
    (fetch : String → Option String) (baseUrl query t : String)
    (h1 : t ≠ "mkdocs") (h2 : t ≠ "sphinx")
    (rs : List SearchResult) (tr : List String)
    (hok : searchDocumentation fetch baseUrl query (some t) = (Except.ok rs, tr)) :
    ∀ r ∈ rs, r.source = "sitemap" := by
  intro r hr
  by_cases hq : normalizeQuery query = ""
  · have hblank : searchDocumentation fetch baseUrl query (some t) = (Except.ok [], []) := by
      unfold searchDocumentation
      rw [hq]
      rfl
    rw [hblank] at hok
    rw [Prod.mk.injEq, Except.ok.injEq] at hok
    rw [← hok.1] at hr
    simp at hr
  · unfold searchDocumentation at hok
    simp only [hq, if_false] at hok
    rcases hb : buildSearchBaseCandidates baseUrl with e | bases
    · rw [hb] at hok
      simp at hok
    · rw [hb] at hok
      dsimp only at hok
      rcases hidx : tryIndexOnBases fetch (some t) (normalizeQuery query)
          (pathsToTryFor (some t)) bases with ⟨o, tri⟩
      have ho := tryIndexOnBases_other_hint fetch t h1 h2 (normalizeQuery query)
        (pathsToTryFor (some t)) bases
      rw [hidx] at ho
      have ho2 : o = none := ho
      subst ho2
      rw [hidx] at hok
      dsimp only at hok
      rcases hsm : sitemapLoop fetch (normalizeQuery query) bases with ⟨o2, tr2⟩
      rw [hsm] at hok
      rcases o2 with _ | results2
      · dsimp only at hok
        rw [Prod.mk.injEq, Except.ok.injEq] at hok
        rw [← hok.1] at hr
        simp at hr
      · dsimp only at hok
        rw [Prod.mk.injEq, Except.ok.injEq] at hok
        have hsrc := sitemapLoop_source fetch (normalizeQuery query) bases results2
          (by rw [hsm])
        rw [← hok.1] at hr
        exact hsrc r hr

theorem searchDocumentation_other_hint_sitemap_only_witness :
    ({ title := "a-intro", url := "https://x/a-intro", snippet := "", source := "sitemap" } :
        SearchResult).source = "sitemap" :=
  searchDocumentation_other_hint_sitemap_only
    (fun u =>
      if u = "https://x/sitemap.xml" then some "<loc>https://x/a-intro</loc>" else none)
    "https://x" "intro" "docusaurus" (by decide) (by decide)
    [{ title := "a-intro", url := "https://x/a-intro", snippet := "", source := "sitemap" }]
    ["https://x/search/search_index.json", "https://x/searchindex.json",
      "https://x/search.json", "https://x/search-index.json", "https://x/searchindex.js",
      "https://x/sitemap.xml"]
    rfl _ (by simp)

/-- Claim C8 counterexample: normalization is not idempotent.  For the base
`https://example.com/a.html.html`, one application strips a single `.html`
layer yielding `https://example.com/a.html`, and applying normalization to
that output strips again, yielding `https://example.com/a`. -/
theorem normalizeUrl_not_idempotent :
    normalizeUrl "https://example.com/a.html.html" =
      Except.ok "https://example.com/a.html" ∧
      normalizeUrl "https://example.com/a.html" = Except.ok "https://example.com/a" ∧
      ("https://example.com/a" : String) ≠ "https://example.com/a.html" :=
  ⟨rfl, rfl, by decide⟩

/-! #### List lemmas for the URL roundtrip -/

theorem listStartsWith_iff_append {p : List Char} :
    ∀ {s : List Char}, listStartsWith p s = true ↔ ∃ t, s = p ++ t := by
  induction p with
  | nil => intro s; simp [listStartsWith]
  | cons x xs ih =>
    intro s
    cases s with
    | nil => simp [listStartsWith]
    | cons y ys =>
      rw [listStartsWith]
      simp only [Bool.and_eq_true, decide_eq_true_eq, ih, List.cons_append, List.cons.injEq]
      constructor
      · rintro ⟨rfl, t, rfl⟩
        exact ⟨t, rfl, rfl⟩
      · rintro ⟨t, rfl, rfl⟩
        exact ⟨rfl, t, rfl⟩

theorem takeWhile_append_all {p : Char → Bool} :
    ∀ (xs ys : List Char), (∀ x ∈ xs, p x = true) →
      (xs ++ ys).takeWhile p = xs ++ ys.takeWhile p
  | [], _, _ => rfl
  | x :: xs, ys, h => by
    have hx := h x (List.mem_cons_self x xs)
    simp only [List.cons_append, List.takeWhile_cons, hx, if_true]
    rw [takeWhile_append_all xs ys (fun y hy => h y (List.mem_cons_of_mem x hy))]

theorem dropWhile_append_all {p : Char → Bool} :
    ∀ (xs ys : List Char), (∀ x ∈ xs, p x = true) →
      (xs ++ ys).dropWhile p = ys.dropWhile p
  | [], _, _ => rfl
  | x :: xs, ys, h => by
    have hx := h x (List.mem_cons_self x xs)
    simp only [List.cons_append, List.dropWhile_cons, hx, if_true]
    exact dropWhile_append_all xs ys (fun y hy => h y (List.mem_cons_of_mem x hy))

theorem takeWhile_head_false {p : Char → Bool} :
    ∀ {ys : List Char}, (∀ y, ys.head? = some y → p y = false) → ys.takeWhile p = []
  | [], _ => rfl
  | y :: ys, h => by
    have := h y rfl
    simp [List.takeWhile_cons, this]

theorem dropWhile_head_false {p : Char → Bool} :
    ∀ {ys : List Char}, (∀ y, ys.head? = some y → p y = false) → ys.dropWhile p = ys
  | [], _ => rfl
  | y :: ys, h => by
    have := h y rfl
    simp [List.dropWhile_cons, this]

theorem head?_dropWhile_false (p : Char → Bool) :
    ∀ (l : List Char) (y : Char), (l.dropWhile p).head? = some y → p y = false := by
  intro l
  induction l with
  | nil => intro y h; simp [List.dropWhile] at h
  | cons x xs ih =>
    intro y h
    rw [List.dropWhile_cons] at h
    split at h
    · exact ih y h
    · rename_i hx
      simp only [List.head?_cons, Option.some.injEq] at h
      subst h
      exact Bool.not_eq_true _ ▸ (by simpa using hx)

theorem asString_ne_empty {l : List Char} (h : l ≠ []) : l.asString ≠ "" := by
  intro hc
  have := congrArg String.data hc
  simp only [show (l.asString).data = l from rfl] at this
  exact h (by simpa using this)

/-- Invariants of `UrlRec` values produced by parsing a lowercase-scheme URL;
exactly what the parse/serialize roundtrip needs. -/
structure UrlWF (u : UrlRec) : Prop where
  scheme_ok : u.scheme = "http" ∨ u.scheme = "https"
  auth_ne : u.authority.data ≠ []
  auth_chars : ∀ c ∈ u.authority.data, urlStopChar c = false
  path_head : u.path.data.head? = some '/'
  path_chars : ∀ c ∈ u.path.data, ¬(c = '?' ∨ c = '#')
  query_chars : ∀ c ∈ u.query.data, c ≠ '#'

theorem schemeSplit_http (rest : List Char) :
    schemeSplit ("http://".data ++ rest) = some ("http".data, rest) := rfl

theorem schemeSplit_https (rest : List Char) :
    schemeSplit ("https://".data ++ rest) = some ("https".data, rest) := rfl

theorem parseTail_eq (A P T : List Char)
    (hA : ∀ c ∈ A, urlStopChar c = false)
    (hP : ∃ t, P = '/' :: t) (hPc : ∀ c ∈ P, ¬(c = '?' ∨ c = '#'))
    (hT : ∀ y, T.head? = some y → y = '?' ∨ y = '#') :
    (A ++ (P ++ T)).takeWhile (fun c => !urlStopChar c) = A ∧
      (A ++ (P ++ T)).drop A.length = P ++ T ∧
      (P ++ T).takeWhile (fun c => !(c = '?' || c = '#')) = P ∧
      (P ++ T).drop P.length = T := by
  obtain ⟨pt, rfl⟩ := hP
  refine ⟨?_, List.drop_left A _, ?_, List.drop_left _ T⟩
  · rw [takeWhile_append_all _ _ (fun x hx => by simp [hA x hx])]
    rw [takeWhile_head_false (fun y hy => ?_), List.append_nil]
    simp only [List.cons_append, List.head?_cons, Option.some.injEq] at hy
    subst hy
    rfl
  · rw [takeWhile_append_all _ _ (fun x hx => ?_)]
    · rw [takeWhile_head_false (fun y hy => ?_), List.append_nil]
      rcases hT y hy with rfl | rfl <;> rfl
    · have hx2 := hPc x hx
      push_neg at hx2
      simp [hx2.1, hx2.2]

theorem parse_serialize (u : UrlRec) (h : UrlWF u) : parseUrl (serializeUrl u) = some u := by
  obtain ⟨sch, A, P, Q, H⟩ := u
  obtain ⟨hsch, hane, hachars, hphead, hpchars, hqchars⟩ := h
  have hane2 : A.data ≠ [] := hane
  have hachars2 : ∀ c ∈ A.data, urlStopChar c = false := hachars
  have hphead2 : P.data.head? = some '/' := hphead
  have hpchars2 : ∀ c ∈ P.data, ¬(c = '?' ∨ c = '#') := hpchars
  have hqchars2 : ∀ c ∈ Q.data, c ≠ '#' := hqchars
  have hP : ∃ t, P.data = '/' :: t := by
    cases hp : P.data with
    | nil => rw [hp] at hphead2; exact absurd hphead2 (by simp)
    | cons a t =>
      rw [hp] at hphead2
      simp only [List.head?_cons, Option.some.injEq] at hphead2
      exact ⟨t, by rw [hphead2]⟩
  have hT : ∀ y,
      (((if Q = "" then [] else '?' :: Q.data) ++
        (if H = "" then [] else '#' :: H.data)).head? = some y) → y = '?' ∨ y = '#' := by
    intro y hy
    by_cases hq : Q = "" <;> by_cases hh : H = "" <;>
      simp only [hq, hh, if_true, if_false, eq_self_iff_true, List.nil_append,
        List.append_nil, List.cons_append, List.head?_cons, List.head?_nil,
        Option.some.injEq, reduceCtorEq] at hy
    all_goals
      first
        | exact absurd hy (by simp)
        | exact Or.inl hy.symm
        | exact Or.inr hy.symm
  obtain ⟨htake1, hdrop1, htake2, hdrop2⟩ :=
    parseTail_eq A.data P.data
      ((if Q = "" then [] else '?' :: Q.data) ++ (if H = "" then [] else '#' :: H.data))
      hachars2 hP hpchars2 hT
  have hPne : P.data.isEmpty = false := by
    obtain ⟨pt, hpt⟩ := hP
    rw [hpt]
    rfl
  have hAne : A.data.isEmpty = false := by
    cases hA : A.data with
    | nil => exact absurd hA hane2
    | cons a as => rfl
  have hquery : (match ((if Q = "" then [] else '?' :: Q.data) ++
        (if H = "" then [] else '#' :: H.data) : List Char) with
      | '?' :: t => t.takeWhile (fun c => c ≠ '#')
      | _ => []) = Q.data := by
    by_cases hq : Q = ""
    · by_cases hh : H = "" <;>
        simp only [hq, hh, if_true, if_false, eq_self_iff_true, List.nil_append,
          List.append_nil] <;>
        rfl
    · simp only [hq, if_false, List.cons_append]
      rw [takeWhile_append_all _ _ (fun x hx => by simp [hqchars2 x hx])]
      by_cases hh : H = ""
      · simp [hh]
      · simp only [hh, if_false]
        rw [takeWhile_head_false (fun y hy => ?_), List.append_nil]
        simp only [List.head?_cons, Option.some.injEq] at hy
        subst hy
        simp
  have hfirstQ : ∀ x ∈ ((if Q = "" then [] else '?' :: Q.data) : List Char),
      (decide (x ≠ '#')) = true := by
    intro x hx
    by_cases hq : Q = ""
    · rw [hq] at hx
      simp at hx
    · simp only [hq, if_false] at hx
      rcases List.mem_cons.mp hx with rfl | hmem
      · simp
      · simp [hqchars2 x hmem]
  have hhash : (match (((if Q = "" then [] else '?' :: Q.data) ++
        (if H = "" then [] else '#' :: H.data)).dropWhile (fun c => c ≠ '#') : List Char) with
      | _ :: t => t
      | [] => []) = H.data := by
    have hdw : ((if Q = "" then [] else '?' :: Q.data) ++
        (if H = "" then [] else '#' :: H.data)).dropWhile (fun c => c ≠ '#') =
        (if H = "" then [] else '#' :: H.data) := by
      rw [dropWhile_append_all _ _ hfirstQ]
      by_cases hh : H = ""
      · rw [hh]
        rfl
      · simp only [hh, if_false]
        rw [List.dropWhile_cons]
        simp
    rw [hdw]
    by_cases hh : H = ""
    · rw [hh]
      rfl
    · simp only [hh, if_false]
  rcases hsch with hcase | hcase <;> subst hcase
  · show parseUrlL (serializeUrlL ⟨"http", A, P, Q, H⟩) = _
    have hform : serializeUrlL ⟨"http", A, P, Q, H⟩ =
        "http://".data ++ (A.data ++ (P.data ++
          ((if Q = "" then [] else '?' :: Q.data) ++
            (if H = "" then [] else '#' :: H.data)))) := by
      simp only [serializeUrlL, List.append_assoc, List.cons_append, List.nil_append]
    rw [hform]
    unfold parseUrlL
    rw [schemeSplit_http]
    dsimp only
    rw [htake1, hAne, hdrop1, htake2, hPne, hdrop2, hquery, hhash]
    rfl
  · show parseUrlL (serializeUrlL ⟨"https", A, P, Q, H⟩) = _
    have hform : serializeUrlL ⟨"https", A, P, Q, H⟩ =
        "https://".data ++ (A.data ++ (P.data ++
          ((if Q = "" then [] else '?' :: Q.data) ++
            (if H = "" then [] else '#' :: H.data)))) := by
      simp only [serializeUrlL, List.append_assoc, List.cons_append, List.nil_append]
    rw [hform]
    unfold parseUrlL
    rw [schemeSplit_https]
    dsimp only
    rw [htake1, hAne, hdrop1, htake2, hPne, hdrop2, hquery, hhash]
    rfl

theorem mem_of_head? {l : List Char} {y : Char} (h : l.head? = some y) : y ∈ l := by
  cases l with
  | nil => simp at h
  | cons a t =>
    simp only [List.head?_cons, Option.some.injEq] at h
    rw [← h]
    exact List.mem_cons_self a t

theorem jsTrim_eq_self {s : String} (h : ∀ c ∈ s.data, jsWhitespace c = false) :
    jsTrim s = s := by
  unfold jsTrim jsTrimL
  rw [dropWhile_head_false (fun y hy => h y (mem_of_head? hy))]
  rw [dropWhile_head_false (fun y hy => h y (List.mem_reverse.mp (mem_of_head? hy)))]
  rw [List.reverse_reverse]
  rfl

theorem listStartsWith_refl_append : ∀ (p rest : List Char),
    listStartsWith p (p ++ rest) = true
  | [], _ => rfl
  | x :: xs, rest => by
    simp [listStartsWith, listStartsWith_refl_append xs rest]

theorem listStartsWith_imp_ci : ∀ {p s : List Char},
    listStartsWith p s = true → listStartsWithCI p s = true
  | [], _, _ => rfl
  | _ :: _, [], h => by simp [listStartsWith] at h
  | x :: xs, c :: cs, h => by
    rw [listStartsWith] at h
    rcases Bool.and_eq_true_iff.mp h with ⟨h1, h2⟩
    have hx : x = c := by simpa using h1
    rw [listStartsWithCI, hx]
    simp [listStartsWith_imp_ci h2]

theorem strEndsWith_iff_append {s suf : String} :
    strEndsWith s suf = true ↔ ∃ pre, s.data = pre ++ suf.data := by
  unfold strEndsWith
  rw [listStartsWith_iff_append]
  constructor
  · rintro ⟨t, ht⟩
    refine ⟨t.reverse, ?_⟩
    have := congrArg List.reverse ht
    simpa using this
  · rintro ⟨pre, hpre⟩
    refine ⟨pre.reverse, ?_⟩
    rw [hpre]
    simp

theorem head?_append_left {l x : List Char} (h : l ≠ []) :
    (l ++ x).head? = l.head? := by
  cases l with
  | nil => exact absurd rfl h
  | cons a t => rfl

theorem head?_take {l : List Char} {n : Nat} (h : 1 ≤ n) :
    (l.take n).head? = l.head? := by
  cases l with
  | nil => simp
  | cons a t =>
    cases n with
    | zero => omega
    | succ m => rfl

theorem drop_takeWhile_length (p : Char → Bool) (l : List Char) :
    l.drop (l.takeWhile p).length = l.dropWhile p :=
  calc l.drop (l.takeWhile p).length
      = (l.takeWhile p ++ l.dropWhile p).drop (l.takeWhile p).length := by
        rw [List.takeWhile_append_dropWhile]
    _ = l.dropWhile p := List.drop_left _ _

theorem urlStopChar_cases {y : Char} (h : urlStopChar y = true) :
    y = '/' ∨ y = '?' ∨ y = '#' := by
  simpa [urlStopChar, or_assoc] using h

theorem UrlWF_mk (schStr A2 Q2 H2 : String) (rest2 : List Char)
    (hsch : schStr = "http" ∨ schStr = "https")
    (hane : A2.data ≠ []) (hachars : ∀ c ∈ A2.data, urlStopChar c = false)
    (hR2head : ∀ y, rest2.head? = some y → urlStopChar y = true)
    (hq2 : ∀ c ∈ Q2.data, c ≠ '#') :
    UrlWF ⟨schStr, A2,
      (if (rest2.takeWhile (fun c => !(c = '?' || c = '#'))).isEmpty then "/"
        else (rest2.takeWhile (fun c => !(c = '?' || c = '#'))).asString), Q2, H2⟩ := by
  refine ⟨hsch, hane, hachars, ?_, ?_, hq2⟩
  · by_cases hpe : (rest2.takeWhile (fun c => !(c = '?' || c = '#'))).isEmpty = true
    · rw [if_pos hpe]
      rfl
    · rw [if_neg hpe]
      cases hrest2 : rest2 with
      | nil =>
        rw [hrest2] at hpe
        exact absurd rfl hpe
      | cons y t =>
        have hy := hR2head y (by rw [hrest2]; rfl)
        rcases urlStopChar_cases hy with rfl | rfl | rfl
        · rfl
        · rw [hrest2] at hpe
          exact absurd rfl hpe
        · rw [hrest2] at hpe
          exact absurd rfl hpe
  · by_cases hpe : (rest2.takeWhile (fun c => !(c = '?' || c = '#'))).isEmpty = true
    · rw [if_pos hpe]
      intro c hc
      have : c = '/' := by simpa using hc
      subst this
      decide
    · rw [if_neg hpe]
      intro c hc
      have hc2 := List.mem_takeWhile_imp hc
      intro hor
      rcases hor with rfl | rfl <;> simp at hc2

theorem parseUrl_wf {s : String} {r : UrlRec}
    (hs : strStartsWith s "http://" = true ∨ strStartsWith s "https://" = true)
    (hp : parseUrl s = some r) : UrlWF r := by
  unfold parseUrl parseUrlL at hp
  rcases hs with hcase | hcase <;>
    obtain ⟨rest, hrest⟩ := listStartsWith_iff_append.mp hcase <;>
    rw [hrest] at hp <;>
    [rw [schemeSplit_http] at hp; rw [schemeSplit_https] at hp] <;>
    dsimp only at hp
  all_goals
    by_cases hemp : (rest.takeWhile (fun c => !urlStopChar c)).isEmpty = true
  all_goals
    first
      | (rw [if_pos hemp] at hp
         exact absurd hp (by simp))
      | (rw [if_neg hemp] at hp
         rw [Option.some.injEq] at hp
         subst hp
         refine UrlWF_mk _ _ _ _ _ ?_ ?_ ?_ ?_ ?_
         · first
             | exact Or.inl rfl
             | exact Or.inr rfl
         · have h5 : (rest.takeWhile (fun c => !urlStopChar c)).isEmpty = false := by
             cases hval : (rest.takeWhile (fun c => !urlStopChar c)).isEmpty
             · rfl
             · exact absurd hval hemp
           exact List.isEmpty_eq_false.mp h5
         · intro c hc
           have hc2 := List.mem_takeWhile_imp hc
           simpa using hc2
         · intro y hy
           rw [drop_takeWhile_length] at hy
           have h3 := head?_dropWhile_false _ rest y hy
           simpa using h3
         · intro c hc
           have hc2 : c ∈ (match (rest.drop
                 ((rest.takeWhile (fun c => !urlStopChar c)).length)).drop
                 (((rest.drop ((rest.takeWhile (fun c => !urlStopChar c)).length)).takeWhile
                   (fun c => !(c = '?' || c = '#'))).length) with
             | '?' :: t => t.takeWhile (fun c => c ≠ '#')
             | _ => []) := hc
           split at hc2
           · have h4 := List.mem_takeWhile_imp hc2
             simpa using h4
           · simp at hc2)

theorem mem_takeWhile_sub {p : Char → Bool} {c : Char} {l : List Char}
    (h : c ∈ l.takeWhile p) : c ∈ l :=
  (List.takeWhile_append_dropWhile p l) ▸ List.mem_append_left _ h

theorem mem_dropWhile_sub {p : Char → Bool} {c : Char} {l : List Char}
    (h : c ∈ l.dropWhile p) : c ∈ l :=
  (List.takeWhile_append_dropWhile p l) ▸ List.mem_append_right _ h


theorem schemeSplit_sub {cs sch rest : List Char}
    (h : schemeSplit cs = some (sch, rest)) :
    (∀ c ∈ sch, c ∈ cs) ∧ ∀ c ∈ rest, c ∈ cs := by
  unfold schemeSplit at h
  split at h
  · rw [Option.some.injEq, Prod.mk.injEq] at h
    obtain ⟨h1, h2⟩ := h
    subst h1
    subst h2
    exact ⟨fun c hc => List.mem_of_mem_take hc, fun c hc => List.mem_of_mem_drop hc⟩
  · split at h
    · rw [Option.some.injEq, Prod.mk.injEq] at h
      obtain ⟨h1, h2⟩ := h
      subst h1
      subst h2
      exact ⟨fun c hc => List.mem_of_mem_take hc, fun c hc => List.mem_of_mem_drop hc⟩
    · exact Option.noConfusion h

theorem parseUrl_sub {s : String} {r : UrlRec} (hp : parseUrl s = some r) :
    (∀ c ∈ r.scheme.data, c ∈ s.data) ∧ (∀ c ∈ r.authority.data, c ∈ s.data) ∧
      (∀ c ∈ r.path.data, c ∈ s.data ∨ c = '/') ∧
      (∀ c ∈ r.query.data, c ∈ s.data) ∧ (∀ c ∈ r.hash.data, c ∈ s.data) := by
  unfold parseUrl parseUrlL at hp
  rcases hss : schemeSplit s.data with _ | ⟨sch, rest⟩ <;> rw [hss] at hp
  · exact Option.noConfusion hp
  obtain ⟨hs1, hs2⟩ := schemeSplit_sub hss
  dsimp only at hp
  by_cases hemp : (rest.takeWhile (fun c => !urlStopChar c)).isEmpty = true
  · rw [if_pos hemp] at hp
    exact Option.noConfusion hp
  rw [if_neg hemp] at hp
  rw [Option.some.injEq] at hp
  subst hp
  refine ⟨?_, ?_, ?_, ?_, ?_⟩
  · intro c hc
    exact hs1 c hc
  · intro c hc
    exact hs2 c (mem_takeWhile_sub hc)
  · intro c hc
    dsimp only at hc
    by_cases hpe : (((rest.drop ((rest.takeWhile (fun c => !urlStopChar c)).length)).takeWhile
        (fun c => !(c = '?' || c = '#'))).isEmpty) = true
    · rw [if_pos hpe] at hc
      right
      simpa using hc
    · rw [if_neg hpe] at hc
      left
      exact hs2 c (List.mem_of_mem_drop (mem_takeWhile_sub hc))
  · intro c hc
    dsimp only at hc
    split at hc
    · rename_i t heq
      have h1 : c ∈ '?' :: t := List.mem_cons_of_mem _ (mem_takeWhile_sub hc)
      rw [← heq] at h1
      exact hs2 c (List.mem_of_mem_drop (List.mem_of_mem_drop h1))
    · exact absurd hc (List.not_mem_nil c)
  · intro c hc
    dsimp only at hc
    split at hc
    · rename_i y t heq
      have h1 : c ∈ y :: t := List.mem_cons_of_mem _ hc
      rw [← heq] at h1
      exact hs2 c (List.mem_of_mem_drop (List.mem_of_mem_drop (mem_dropWhile_sub h1)))
    · exact absurd hc (List.not_mem_nil c)

theorem serialize_no_ws {u : UrlRec}
    (h1 : ∀ c ∈ u.scheme.data, jsWhitespace c = false)
    (h2 : ∀ c ∈ u.authority.data, jsWhitespace c = false)
    (h3 : ∀ c ∈ u.path.data, jsWhitespace c = false)
    (h4 : ∀ c ∈ u.query.data, jsWhitespace c = false)
    (h5 : ∀ c ∈ u.hash.data, jsWhitespace c = false) :
    ∀ c ∈ (serializeUrl u).data, jsWhitespace c = false := by
  intro c hc
  have hc2 : c ∈ serializeUrlL u := hc
  unfold serializeUrlL at hc2
  rcases List.mem_append.mp hc2 with hc2 | hc2
  · rcases List.mem_append.mp hc2 with hc2 | hc2
    · rcases List.mem_append.mp hc2 with hc2 | hc2
      · rcases List.mem_append.mp hc2 with hc2 | hc2
        · rcases List.mem_append.mp hc2 with hc2 | hc2
          · exact h1 c hc2
          · simp only [List.mem_cons, List.not_mem_nil, or_false] at hc2
            rcases hc2 with rfl | rfl | rfl <;> decide
        · exact h2 c hc2
      · exact h3 c hc2
    · split at hc2
      · exact absurd hc2 (List.not_mem_nil c)
      · rcases List.mem_cons.mp hc2 with rfl | hmem
        · decide
        · exact h4 c hmem
  · split at hc2
    · exact absurd hc2 (List.not_mem_nil c)
    · rcases List.mem_cons.mp hc2 with rfl | hmem
      · decide
      · exact h5 c hmem

theorem serialize_starts {u : UrlRec} (h : u.scheme = "http" ∨ u.scheme = "https") :
    strStartsWith (serializeUrl u) "http://" = true ∨
      strStartsWith (serializeUrl u) "https://" = true := by
  rcases h with h | h
  · left
    show listStartsWith "http://".data (serializeUrlL u) = true
    unfold serializeUrlL
    rw [h]
    rfl
  · right
    show listStartsWith "https://".data (serializeUrlL u) = true
    unfold serializeUrlL
    rw [h]
    rfl

theorem stripExt_fields (p : UrlRec) :
    (stripExt p).scheme = p.scheme ∧ (stripExt p).authority = p.authority ∧
      (stripExt p).query = p.query ∧ (stripExt p).hash = p.hash := by
  unfold stripExt
  split
  · exact ⟨rfl, rfl, rfl, rfl⟩
  · split
    · exact ⟨rfl, rfl, rfl, rfl⟩
    · split
      · exact ⟨rfl, rfl, rfl, rfl⟩
      · exact ⟨rfl, rfl, rfl, rfl⟩

theorem stripSlash_fields (p : UrlRec) :
    (stripSlash p).scheme = p.scheme ∧ (stripSlash p).authority = p.authority ∧
      (stripSlash p).query = p.query ∧ (stripSlash p).hash = p.hash := by
  unfold stripSlash
  split
  · exact ⟨rfl, rfl, rfl, rfl⟩
  · exact ⟨rfl, rfl, rfl, rfl⟩

theorem stripRec_fields (r : UrlRec) :
    (stripRec r).scheme = r.scheme ∧ (stripRec r).authority = r.authority ∧
      (stripRec r).query = r.query ∧ (stripRec r).hash = "" := by
  obtain ⟨e1, e2, e3, e4⟩ := stripSlash_fields (stripExt { r with hash := "" })
  obtain ⟨f1, f2, f3, f4⟩ := stripExt_fields { r with hash := "" }
  exact ⟨e1.trans f1, e2.trans f2, e3.trans f3, e4.trans f4⟩

theorem stripExt_path_sub {p : UrlRec} :
    ∀ c ∈ (stripExt p).path.data, c ∈ p.path.data ∨ c = '/' := by
  intro c hc
  unfold stripExt at hc
  repeat' (first | split at hc | dsimp only at hc)
  all_goals
    first
      | exact Or.inl hc
      | (right; simpa using hc)
      | exact Or.inl (List.mem_of_mem_take hc)

theorem stripSlash_path_sub {p : UrlRec} :
    ∀ c ∈ (stripSlash p).path.data, c ∈ p.path.data := by
  intro c hc
  unfold stripSlash at hc
  split at hc
  · exact List.mem_of_mem_take hc
  · exact hc

theorem stripRec_path_sub {r : UrlRec} :
    ∀ c ∈ (stripRec r).path.data, c ∈ r.path.data ∨ c = '/' := by
  intro c hc
  have hc2 : c ∈ (stripSlash (stripExt { r with hash := "" })).path.data := hc
  have hc3 := stripSlash_path_sub c hc2
  exact @stripExt_path_sub { r with hash := "" } c hc3

theorem take_ne_nil_pos {l : List Char} {n : Nat} (h : l.take n ≠ []) : 1 ≤ n := by
  cases n with
  | zero => simp at h
  | succ m => omega

theorem stripExt_path_head {p : UrlRec} (hh : p.path.data.head? = some '/') :
    (stripExt p).path.data.head? = some '/' := by
  unfold stripExt
  split
  · dsimp only
    split
    · rfl
    · rename_i hsl
      have hne : p.path.data.take (p.path.length - "/index.html".length) ≠ [] := by
        intro h0
        apply hsl
        show (p.path.data.take (p.path.length - "/index.html".length)).asString = ""
        rw [h0]
        rfl
      show (p.path.data.take (p.path.length - "/index.html".length)).head? = some '/'
      rw [head?_take (take_ne_nil_pos hne)]
      exact hh
  · split
    · exact hh
    · split
      · rename_i hgen h3
        obtain ⟨pre, hpre⟩ := strEndsWith_iff_append.mp h3
        have hprene : pre ≠ [] := by
          intro h0
          rw [h0, List.nil_append] at hpre
          rw [hpre] at hh
          exact absurd hh (by decide)
        have hlen : p.path.length - ".html".length = pre.length := by
          have h0 : p.path.length = pre.length + 5 := by
            rw [show p.path.length = p.path.data.length from rfl, hpre, List.length_append]
            rfl
          rw [h0]
          show pre.length + 5 - 5 = pre.length
          omega
        show (p.path.data.take (p.path.length - ".html".length)).head? = some '/'
        rw [hlen, hpre, List.take_left]
        have h6 : (pre ++ ".html".data).head? = pre.head? := head?_append_left hprene
        rw [← hpre] at h6
        rw [← h6]
        exact hh
      · exact hh

theorem stripSlash_path_head {p : UrlRec} (hh : p.path.data.head? = some '/') :
    (stripSlash p).path.data.head? = some '/' := by
  unfold stripSlash
  split
  · rename_i hcond
    have hne : p.path ≠ "/" := by
      rcases Bool.and_eq_true_iff.mp hcond with ⟨ha, _⟩
      simpa using ha
    have hends : strEndsWith p.path "/" = true := (Bool.and_eq_true_iff.mp hcond).2
    obtain ⟨pre, hpre⟩ := strEndsWith_iff_append.mp hends
    have hprene : pre ≠ [] := by
      intro h0
      apply hne
      rw [h0, List.nil_append] at hpre
      exact String.ext hpre
    have hlen : p.path.length - 1 = pre.length := by
      have h0 : p.path.length = pre.length + 1 := by
        rw [show p.path.length = p.path.data.length from rfl, hpre, List.length_append]
        rfl
      rw [h0]
      omega
    show (p.path.data.take (p.path.length - 1)).head? = some '/'
    rw [hlen, hpre, List.take_left]
    have h6 : (pre ++ "/".data).head? = pre.head? := head?_append_left hprene
    rw [← hpre] at h6
    rw [← h6]
    exact hh
  · exact hh

theorem stripRec_wf {r : UrlRec} (h : UrlWF r) : UrlWF (stripRec r) := by
  obtain ⟨e1, e2, e3, e4⟩ := stripRec_fields r
  refine ⟨?_, ?_, ?_, ?_, ?_, ?_⟩
  · rw [e1]
    exact h.scheme_ok
  · rw [e2]
    exact h.auth_ne
  · rw [e2]
    exact h.auth_chars
  · show (stripSlash (stripExt { r with hash := "" })).path.data.head? = some '/'
    refine stripSlash_path_head (@stripExt_path_head { r with hash := "" } ?_)
    exact h.path_head
  · intro c hc
    rcases stripRec_path_sub c hc with h5 | h5
    · exact h.path_chars c h5
    · subst h5
      decide
  · rw [e3]
    exact h.query_chars

theorem strEndsWith_glossary_html {s : String}
    (h : strEndsWith s "glossary.html" = true) : strEndsWith s ".html" = true := by
  obtain ⟨pre, hpre⟩ := strEndsWith_iff_append.mp h
  refine strEndsWith_iff_append.mpr ⟨pre ++ "glossary".data, ?_⟩
  rw [hpre, List.append_assoc]
  rfl

theorem stripRec_fix {r : UrlRec} (hhash : r.hash = "")
    (h1 : strEndsWith r.path "index.html" = false)
    (h2 : strEndsWith r.path "glossary.html" = true ∨ strEndsWith r.path ".html" = false)
    (h3 : r.path = "/" ∨ strEndsWith r.path "/" = false) :
    stripRec r = r := by
  have hr0 : ({ r with hash := "" } : UrlRec) = r := by
    cases r
    dsimp only at hhash ⊢
    rw [hhash]
  rw [stripRec, hr0]
  have hext : stripExt r = r := by
    rw [stripExt]
    rcases h2 with hg | hh5
    · rw [if_neg (by simp [h1]), if_pos hg]
    · have hgl : ¬ strEndsWith r.path "glossary.html" = true := by
        intro hg
        rw [strEndsWith_glossary_html hg] at hh5
        exact Bool.noConfusion hh5
      rw [if_neg (by simp [h1]), if_neg hgl, if_neg (by simp [hh5])]
  rw [hext, stripSlash]
  rcases h3 with hp | hp
  · rw [if_neg (by rw [hp]; decide)]
  · rw [if_neg (by simp [hp])]

theorem resolveTargetUrl_none_eq {v : String}
    (htrim : jsTrim v = v) (hne : v ≠ "") (hhs : hasHttpScheme v = true) :
    resolveTargetUrl v none =
      match parseUrl v with
      | none => Except.error "invalid URL"
      | some r => Except.ok (serializeUrl r) := by
  unfold resolveTargetUrl
  dsimp only
  rw [htrim, if_neg hne]
  simp only [Option.map_none', Bool.false_eq_true, if_false]
  rw [if_pos hhs]

/-- Claim C8 (amended): resolving a docset base URL and stripping its HTML
extension is idempotent on its own output, provided the input URL is
whitespace-free with a literal lowercase `http://` or `https://` scheme and
the normalized path neither ends in `index.html`, nor in a further
strippable `.html` suffix, nor in a trailing slash (other than the bare
root path).  The unamended universal statement is refuted by
`normalizeUrl_not_idempotent`. -/
theorem normalizeUrl_idempotent_amended (u v : String) (r : UrlRec)
    (hu_ws : ∀ c ∈ u.data, jsWhitespace c = false)
    (hu_sch : strStartsWith u "http://" = true ∨ strStartsWith u "https://" = true)
    (hnorm : normalizeUrl u = Except.ok v)
    (hr : parseUrl v = some r)
    (h1 : strEndsWith r.path "index.html" = false)
    (h2 : strEndsWith r.path "glossary.html" = true ∨ strEndsWith r.path ".html" = false)
    (h3 : r.path = "/" ∨ strEndsWith r.path "/" = false) :
    normalizeUrl v = Except.ok v := by
  have htrim_u : jsTrim u = u := jsTrim_eq_self hu_ws
  have hu_ne : u ≠ "" := by
    intro he
    rcases hu_sch with h | h <;> rw [he] at h <;> exact absurd h (by decide)
  have hhs_u : hasHttpScheme u = true := by
    unfold hasHttpScheme
    rcases hu_sch with h | h
    · have h' : listStartsWith "http://".data u.data = true := h
      rw [listStartsWith_imp_ci h']
      rfl
    · have h' : listStartsWith "https://".data u.data = true := h
      rw [listStartsWith_imp_ci h']
      simp
  have hres := resolveTargetUrl_none_eq htrim_u hu_ne hhs_u
  unfold normalizeUrl at hnorm
  rw [hres] at hnorm
  cases hpu : parseUrl u with
  | none =>
    rw [hpu] at hnorm
    dsimp only [Except.map] at hnorm
    exact Except.noConfusion hnorm
  | some r0 =>
    rw [hpu] at hnorm
    dsimp only [Except.map] at hnorm
    rw [Except.ok.injEq] at hnorm
    have hwf0 : UrlWF r0 := parseUrl_wf hu_sch hpu
    have hwf1 : UrlWF (stripRec r0) := stripRec_wf hwf0
    have hv2 : v = serializeUrl (stripRec r0) := by
      rw [← hnorm]
      unfold stripHtmlExtension
      rw [parse_serialize r0 hwf0]
    have hpv : parseUrl v = some (stripRec r0) := by
      rw [hv2]
      exact parse_serialize _ hwf1
    have hreq : stripRec r0 = r := Option.some.inj (hpv.symm.trans hr)
    obtain ⟨hw1, hw2, hw3, hw4, hw5⟩ := parseUrl_sub hpu
    obtain ⟨e1, e2, e3, e4⟩ := stripRec_fields r0
    have hnws : ∀ c ∈ v.data, jsWhitespace c = false := by
      rw [hv2]
      refine serialize_no_ws ?_ ?_ ?_ ?_ ?_
      · rw [e1]
        intro c hc
        exact hu_ws c (hw1 c hc)
      · rw [e2]
        intro c hc
        exact hu_ws c (hw2 c hc)
      · intro c hc
        rcases stripRec_path_sub c hc with h5 | h5
        · rcases hw3 c h5 with h6 | h6
          · exact hu_ws c h6
          · subst h6
            decide
        · subst h5
          decide
      · rw [e3]
        intro c hc
        exact hu_ws c (hw4 c hc)
      · rw [e4]
        intro c hc
        exact absurd hc (List.not_mem_nil c)
    have htrim_v : jsTrim v = v := jsTrim_eq_self hnws
    have hstarts_v := serialize_starts hwf1.scheme_ok
    rw [← hv2] at hstarts_v
    have hv_ne : v ≠ "" := by
      intro he
      rcases hstarts_v with h | h <;> rw [he] at h <;> exact absurd h (by decide)
    have hhs_v : hasHttpScheme v = true := by
      unfold hasHttpScheme
      rcases hstarts_v with h | h
      · have h' : listStartsWith "http://".data v.data = true := h
        rw [listStartsWith_imp_ci h']
        rfl
      · have h' : listStartsWith "https://".data v.data = true := h
        rw [listStartsWith_imp_ci h']
        simp
    have hres_v := resolveTargetUrl_none_eq htrim_v hv_ne hhs_v
    unfold normalizeUrl
    rw [hres_v, hpv]
    dsimp only [Except.map]
    unfold stripHtmlExtension
    rw [parse_serialize _ hwf1]
    dsimp only
    have hfix : stripRec (stripRec r0) = stripRec r0 := by
      refine stripRec_fix e4 ?_ ?_ ?_
      · rw [hreq]
        exact h1
      · rw [hreq]
        exact h2
      · rw [hreq]
        exact h3
    rw [hfix, ← hv2]

theorem normalizeUrl_idempotent_amended_witness :
    normalizeUrl "https://example.com/a" = Except.ok "https://example.com/a" :=
  normalizeUrl_idempotent_amended "https://example.com/a/index.html" "https://example.com/a"
    ⟨"https", "example.com", "/a", "", ""⟩ (by decide) (Or.inr (by decide)) (by rfl) (by rfl)
    (by rfl) (Or.inr (by rfl)) (Or.inr (by rfl))
